import Mathlib

/-!
safedep/ptyx: event classifier, prompt detector, wait result, command sequence,
echo loop, option parsing

A shallow embedding of `processStream` (`cmd/event/main.go`), of
`promptDetector.Read` (`cmd/scan/main.go`), of `handleWaitResult`,
`checkSignal` and `runCommandSequence` with its line reader (`cmd/sequence`), of
`echoLoop` (`cmd/echo/main.go`) and of `ParseRunOpts` and `ParseResizeOpts`
(`cmd/run/options.go`, `cmd/resize/options.go`), followed by the properties of
the specification that concern them.

Runes and bytes are natural numbers.  A reader is the list of results its
successive read calls return; once that list is used up every further read
returns `io.EOF`.
-/

namespace event

/-- A Go `rune` as produced by `bufio.Reader.ReadRune`. -/
abbrev Rune := Nat

/-- The rune `'\x1b'`. -/
def ESC : Rune := 0x1b
/-- The rune `'['`. -/
def LBRACKET : Rune := 0x5b
/-- The rune `'\r'`. -/
def CR : Rune := 0x0d
/-- The rune `'\n'`. -/
def LF : Rune := 0x0a

/-- The four event kinds (`EventType` constants of `cmd/event/main.go`). -/
inductive EventType
  | EventText
  | EventANSI
  | EventControl
  | EventUnhandled
  deriving DecidableEq, Repr

/-- An event, `Event{Type, Payload}`; the field `Type` is named `Kind` here (as in
the specification), the payload string is kept as its runes. -/
structure Event where
  Kind : EventType
  Payload : List Rune
  deriving DecidableEq, Repr

/-- The error of a failed `ReadRune`: `io.EOF`, or any other error. -/
inductive ReadErr
  | EOF
  | other (msg : String)
  deriving DecidableEq, Repr

/-- The result of one `reader.ReadRune()` call. -/
inductive ReadResult
  | ok (r : Rune)
  | err (e : ReadErr)
  deriving DecidableEq, Repr

/-- The condition `seqRune >= 0x40 && seqRune <= 0x7E` (line 118). -/
def isFinal (r : Rune) : Bool := decide (0x40 ≤ r) && decide (r ≤ 0x7E)

/-- The `case '\r', '\n'` test of the switch (line 126). -/
def isControl (r : Rune) : Bool := r == CR || r == LF

/-- The guarded flush `if textBuffer.Len() > 0 { Fprintln(Text); Reset() }`
(lines 93-95, 101-104, 127-130): the events it writes. -/
def flush (textBuffer : List Rune) : List Event :=
  if textBuffer.length > 0 then [⟨EventType.EventText, textBuffer⟩] else []

/-- Which `ReadRune` call of `processStream` is pending, with the live buffer.
* `text textBuffer`: the read at the top of the outer loop (line 91);
* `esc`: the read after an ESC (line 106), `textBuffer` having been flushed;
* `csi csiSequence`: the read of the inner loop (line 113). -/
inductive Mode
  | text (textBuffer : List Rune)
  | esc
  | csi (csiSequence : List Rune)
  deriving DecidableEq, Repr

/-- The events `processStream` writes from the given read position on, the
reader returning the listed results and then `io.EOF` for ever.

The `break` of line 108 sits in the `switch`, so it leaves the switch only and
the outer loop reads again; the `break`s of lines 115 and 119 leave the inner
loop and line 122 then writes the ANSI event; the `break` of line 96 leaves the
outer loop. -/
def run : Mode → List ReadResult → List Event
  -- line 91 fails with io.EOF: flush, leave the loop
  | .text textBuffer, [] => flush textBuffer
  -- line 91 fails: flush only on io.EOF, leave the loop
  | .text textBuffer, .err e :: _ =>
      if e = ReadErr.EOF then flush textBuffer else []
  | .text textBuffer, .ok r :: rest =>
      if r = ESC then
        flush textBuffer ++ run .esc rest
      else if isControl r then
        flush textBuffer ++ ⟨EventType.EventControl, [r]⟩ :: run (.text []) rest
      else
        run (.text (textBuffer ++ [r])) rest
  -- line 106 fails, the outer loop reads again, fails again, buffer is empty
  | .esc, [] => []
  -- line 106 fails: back to the top of the outer loop
  | .esc, .err _ :: rest => run (.text []) rest
  | .esc, .ok next :: rest =>
      if next = LBRACKET then
        run (.csi []) rest
      else
        ⟨EventType.EventUnhandled, [next]⟩ :: run (.text []) rest
  -- line 113 fails: write the ANSI event; the outer loop then fails at line 91
  | .csi csiSequence, [] => [⟨EventType.EventANSI, csiSequence⟩]
  -- line 113 fails: write the ANSI event, back to the outer loop
  | .csi csiSequence, .err _ :: rest =>
      ⟨EventType.EventANSI, csiSequence⟩ :: run (.text []) rest
  | .csi csiSequence, .ok seqRune :: rest =>
      if isFinal seqRune then
        ⟨EventType.EventANSI, csiSequence ++ [seqRune]⟩ :: run (.text []) rest
      else
        run (.csi (csiSequence ++ [seqRune])) rest

/-- The events `processStream(w, r)` writes to `w`, one per `Fprintln`, when the
rune reader over `r` returns `input`. -/
def processStream (input : List ReadResult) : List Event :=
  run (.text []) input

/-- A reader that delivers the runes of `s` and then ends with `io.EOF`
(such as `strings.NewReader`). -/
def ofRunes (s : List Rune) : List ReadResult := s.map ReadResult.ok

/-- The runes of a string literal. -/
def runes (s : String) : List Rune := s.toList.map Char.toNat

/-- The payloads of the Text and Control events of an output, concatenated. -/
def textControlPayload : List Event → List Rune
  | [] => []
  | e :: es =>
      if e.Kind = EventType.EventText ∨ e.Kind = EventType.EventControl then
        e.Payload ++ textControlPayload es
      else textControlPayload es

end event

namespace event

/-! ## Specification-side notions for the event classifier -/

/-- The input `s` with every escape sequence removed is `out`, an escape
sequence being: ESC followed by one rune other than `[`; ESC `[` followed by the
runes up to and including the first rune in `0x40..0x7E`, or up to the end of
the input when there is none; or a lone ESC at the end of the input. -/
inductive StripEsc : List Rune → List Rune → Prop
  | nil : StripEsc [] []
  | plain (r : Rune) (rest out : List Rune) :
      r ≠ ESC → StripEsc rest out → StripEsc (r :: rest) (r :: out)
  | lone : StripEsc [ESC] []
  | two (c : Rune) (rest out : List Rune) :
      c ≠ LBRACKET → StripEsc rest out → StripEsc (ESC :: c :: rest) out
  | csi (p : List Rune) (f : Rune) (rest out : List Rune) :
      (∀ x ∈ p, isFinal x = false) → isFinal f = true → StripEsc rest out →
      StripEsc (ESC :: LBRACKET :: (p ++ f :: rest)) out
  | csiOpen (p : List Rune) :
      (∀ x ∈ p, isFinal x = false) → StripEsc (ESC :: LBRACKET :: p) []

/-- The rune sequence `a` is made of whole tokens: runes other than ESC,
two-rune escapes ESC `c` with `c` other than `[`, and CSI sequences closed by
their final rune.  After such a prefix the next rune is read by the outer
loop, so an ESC that follows it introduces an escape sequence. -/
inductive Whole : List Rune → Prop
  | nil : Whole []
  | plain (r : Rune) (a : List Rune) : r ≠ ESC → Whole a → Whole (r :: a)
  | two (c : Rune) (a : List Rune) : c ≠ LBRACKET → Whole a → Whole (ESC :: c :: a)
  | csi (p : List Rune) (f : Rune) (a : List Rune) :
      (∀ x ∈ p, isFinal x = false) → isFinal f = true → Whole a →
      Whole (ESC :: LBRACKET :: (p ++ f :: a))

/-- The rune sequence `pre` ends where no text is pending: it is empty, or it
is a sequence of whole tokens whose last token is a `\r` or `\n`, a two-rune
escape, or a closed CSI sequence. -/
inductive Boundary : List Rune → Prop
  | nil : Boundary []
  | control (a : List Rune) (c : Rune) : Whole a → (c = CR ∨ c = LF) → Boundary (a ++ [c])
  | two (a : List Rune) (c : Rune) : Whole a → c ≠ LBRACKET → Boundary (a ++ [ESC, c])
  | csi (a p : List Rune) (f : Rune) :
      Whole a → (∀ x ∈ p, isFinal x = false) → isFinal f = true →
      Boundary (a ++ ESC :: LBRACKET :: (p ++ [f]))

/-- Two neighbouring runes belong to the same run of text: neither is `\r`
nor `\n`. -/
def sameTextRun (a b : Rune) : Bool := !isControl a && !isControl b

/-- The event of one group of an ESC-free input cut into maximal runs: a
Control event for a `\r` or `\n`, a Text event for a run of other runes. -/
def groupEvent (g : List Rune) : Event :=
  if g.any isControl then ⟨EventType.EventControl, g⟩ else ⟨EventType.EventText, g⟩

/-- The events the specification gives for an ESC-free input: one Text event
per maximal non-empty run of runes other than `\r` and `\n`, one Control event
per `\r` or `\n`, in input order. -/
def plainEvents (s : List Rune) : List Event :=
  (s.splitBy sameTextRun).map groupEvent

/-- Well-formedness of an emitted event, by kind. -/
def WellFormed (e : Event) : Prop :=
  match e.Kind with
  | .EventText => e.Payload ≠ [] ∧ ∀ x ∈ e.Payload, x ≠ ESC ∧ x ≠ CR ∧ x ≠ LF
  | .EventControl => e.Payload = [CR] ∨ e.Payload = [LF]
  | .EventUnhandled => ∃ c, e.Payload = [c] ∧ c ≠ LBRACKET
  | .EventANSI => True

/-- What holds of the live buffer at each read position: the text buffer holds
no ESC, `\r` or `\n`. -/
def ModeOK : Mode → Prop
  | .text tb => ∀ x ∈ tb, x ≠ ESC ∧ x ≠ CR ∧ x ≠ LF
  | .esc => True
  | .csi _ => True

/-- Two neighbouring events are not both Text events. -/
def NotBothText (e1 e2 : Event) : Prop :=
  ¬ (e1.Kind = EventType.EventText ∧ e2.Kind = EventType.EventText)

/-- The first event of an output, if there is one, is not a Text event. -/
def HeadNotText (es : List Event) : Prop :=
  ∀ e ∈ es.head?, e.Kind ≠ EventType.EventText

end event

namespace scan

/-! ## The prompt detector of `cmd/scan/main.go` -/

/-- A byte of a `[]byte`. -/
abbrev Byte := Nat

/-- The bytes of an ASCII string literal, `[]byte("...")`. -/
def bytes (s : String) : List Byte := s.toList.map Char.toNat

/-- The library function `bytes.Contains(b, subslice)`: whether `subslice` is
within `b`. -/
def bytesContains (b subslice : List Byte) : Bool := decide (subslice <:+: b)

/-- What one call `d.r.Read(p)` of the underlying reader did: it returned
`n = len(data)` and `err`, and left `data` in `p[:n]` and `scratch` in `p[n:]`. -/
structure ReadOutcome where
  data : List Byte
  scratch : List Byte
  err : Option String
  deriving DecidableEq, Repr

/-- What `promptDetector.Read(p)` hands back: the buffer `p` after the call and
the named results `n` and `err`. -/
structure ReadReturn where
  p : List Byte
  n : Nat
  err : Option String
  deriving DecidableEq, Repr

/-- The state of a `promptDetector`: the pattern, whether the channel
`promptFound` is closed, whether `once` has run, and the bytes in `readBuf`.
The reader `r` is given by the outcomes of its calls, the mutex `mu` makes the
calls of `Read` follow one another. -/
structure promptDetector where
  prompt : List Byte
  promptFound : Bool
  once : Bool
  readBuf : List Byte
  deriving DecidableEq, Repr

/-- The builtin `close(ch)` on a channel that is closed (`true`) or not: closing
a closed channel panics (`none`). -/
def closeChan (closed : Bool) : Option Bool :=
  if closed then none else some true

/-- The method `promptDetector.Read` (lines 33-44), given the outcome of the
underlying `d.r.Read(p)`; `none` is a panic. -/
def promptDetector.Read (d : promptDetector) (under : ReadOutcome) :
    Option (promptDetector × ReadReturn) :=
  let n := under.data.length
  let ret : ReadReturn := ⟨under.data ++ under.scratch, n, under.err⟩
  if n > 0 then
    -- d.readBuf.Write(p[:n])
    let d1 : promptDetector := { d with readBuf := d.readBuf ++ under.data }
    if bytesContains d1.readBuf d1.prompt then
      -- d.once.Do(func() { close(d.promptFound) })
      if d1.once then some (d1, ret)
      else
        match closeChan d1.promptFound with
        | none => none
        | some closed => some ({ d1 with once := true, promptFound := closed }, ret)
    else some (d1, ret)
  else some (d, ret)

/-- A detector as `main` and the tests build it: the pattern set, a channel
just made, `once` and `readBuf` at their zero values. -/
def newDetector (prompt : List Byte) : promptDetector :=
  { prompt := prompt, promptFound := false, once := false, readBuf := [] }

/-- The detector after the successive calls of `Read` whose underlying reads
had the given outcomes (as `io.Copy` makes them); `none` if one panicked. -/
def readAll : promptDetector → List ReadOutcome → Option promptDetector
  | d, [] => some d
  | d, under :: rest =>
      match d.Read under with
      | none => none
      | some (d1, _) => readAll d1 rest

/-- The bytes returned by a sequence of reads, concatenated. -/
def bytesRead (reads : List ReadOutcome) : List Byte :=
  (reads.map (fun under => under.data)).flatten

/-- What holds of a detector between reads: the channel is closed exactly when
`once` has run, and exactly when the buffer contains the pattern. -/
def DetectorOK (d : promptDetector) : Prop :=
  d.once = d.promptFound ∧ (d.promptFound = true ↔ d.prompt <:+: d.readBuf)

/-- Whether a call of `Read` reaches `close(d.promptFound)` (line 40): bytes
were read, the buffer now contains the pattern, and `once` has not run yet. -/
def reachesClose (d : promptDetector) (under : ReadOutcome) : Bool :=
  decide (under.data.length > 0) && bytesContains (d.readBuf ++ under.data) d.prompt && !d.once

/-- How many times `close(d.promptFound)` is reached over a sequence of reads
(counted up to a panic, if there is one). -/
def closeCount : promptDetector → List ReadOutcome → Nat
  | _, [] => 0
  | d, under :: rest =>
      (if reachesClose d under then 1 else 0) +
        match d.Read under with
        | none => 0
        | some (d1, _) => closeCount d1 rest

/-- The channel is closed by `once` only: it is closed exactly when `once` has
run. -/
def OnceGuards (d : promptDetector) : Prop := d.once = d.promptFound

end scan

namespace sequence

/-! ## The wait result and the command sequence of `cmd/sequence` -/

/-- A `syscall.WaitStatus`, as far as `checkSignal` looks at it: the result of
`ws.Signaled()` and the text of `ws.Signal()` under the verb `%s`. -/
structure WaitStatus where
  Signaled : Bool
  Signal : String
  deriving DecidableEq, Repr

/-- The value `exitErr.Sys()` returns, of type `any`: a `syscall.WaitStatus`, or
anything else (nil included), for which the type assertion of line 16 fails. -/
inductive SysValue
  | waitStatus (ws : WaitStatus)
  | other
  deriving DecidableEq, Repr

/-- Modelled from the spec: the type `ptyx.ExitError`, declared in the root
package of the library, "a termination error exposing at least a numeric exit
code and an opaque platform status usable for signal inspection".  `ExitCode`
is its field, `Sys` the value of its method `Sys()`, `Error` the text of its
method `Error()`. -/
structure ExitError where
  ExitCode : Int
  Sys : SysValue
  Error : String
  deriving DecidableEq, Repr

/-- A non-nil Go `error`: a `*ptyx.ExitError`, an error of another type that
wraps nothing, or an error of another type that wraps one error (`Unwrap`),
each with the text of its `Error()`. -/
inductive GoError
  | plain (text : String)
  | exit (e : ExitError)
  | wrap (text : String) (inner : GoError)
  deriving DecidableEq, Repr

/-- The text of `err.Error()`, which the verb `%v` prints. -/
def GoError.Error : GoError → String
  | .plain text => text
  | .exit e => e.Error
  | .wrap text _ => text

/-- The library call `errors.As(err, &exitErr)` with `exitErr` a
`*ptyx.ExitError`: the first `ExitError` on the `Unwrap` chain of `err`. -/
def errorsAs : GoError → Option ExitError
  | .plain _ => none
  | .exit e => some e
  | .wrap _ inner => errorsAs inner

/-- The two errors a context can report, `context.Canceled` and
`context.DeadlineExceeded`. -/
inductive CtxErr
  | Canceled
  | DeadlineExceeded
  deriving DecidableEq, Repr

/-- A `context.Context` at the time of the call, as far as `handleWaitResult`
looks at it: the value of `spawnCtx.Err()` (`none` is nil). -/
structure Context where
  Err : Option CtxErr
  deriving DecidableEq, Repr

/-- The verb `%d` on an `int`: its decimal text, with `-` for a negative. -/
def fmtD (c : Int) : String := toString c

/-- The unix `checkSignal` (`sequence_unix.go`, lines 13-21). -/
def checkSignal (err : GoError) : String :=
  match errorsAs err with
  | some exitErr =>
      match exitErr.Sys with
      | .waitStatus ws =>
          if ws.Signaled then "Terminated by signal: " ++ ws.Signal ++ "\n" else ""
      | .other => ""
  | none => ""

/-- The line written when the context reports an error (line 101). -/
def interruptedLine : String := "[DEMO] Process was interrupted.\n"

/-- The function `handleWaitResult` (lines 90-109); `waitErr = none` is nil.
Each step appends to the builder `b` what the source writes to it. -/
def handleWaitResult (spawnCtx : Context) (waitErr : Option GoError) : Int × String :=
  let b := "\n--- Wait Result ---\n"
  match waitErr with
  | some err =>
      let b := b ++ ("Go error: " ++ err.Error ++ "\n")
      let b :=
        match errorsAs err with
        | some exitErr => b ++ ("Exit code: " ++ fmtD exitErr.ExitCode ++ "\n") ++ checkSignal err
        | none => b
      let b := if spawnCtx.Err ≠ none then b ++ interruptedLine else b
      (1, b)
  | none =>
      let b := b ++ "\n[DEMO] Process finished naturally.\n"
      let b := b ++ "Process exited successfully with code 0.\n"
      (0, b)

/-- The library call `strings.Contains(s, substr)`. -/
def Contains (s substr : String) : Prop := substr.data <:+: s.data

instance (s substr : String) : Decidable (Contains s substr) :=
  inferInstanceAs (Decidable (substr.data <:+: s.data))

/-- A `ptyx.Session`, as far as `runCommandSequence` uses it: the bytes its
`PtyReader()` delivers and the error that ends them (`none` is `io.EOF`), read
by the goroutine of lines 60-74 alone; the error `Write` of its `PtyWriter()`
returns for a payload (`none` is nil); the error its `Wait()` returns. -/
structure Session where
  ptyOut : List Nat
  ptyErr : Option String
  write : String → Option GoError
  wait : Option GoError

/-- The command line `full` of lines 76-81, chosen by `runtime.GOOS`. -/
def full (goos : String) : String :=
  if goos = "windows" then
    "@echo [[PTYX_READY]] & @echo Loading... & ping -n 3 127.0.0.1 >NUL & @echo [[PTYX_DONE]] & exit 0"
  else
    "echo [[PTYX_READY]]; echo Loading...; sleep 2; echo [[PTYX_DONE]]; exit 0"

/-- What a call of `runCommandSequence` did on the calling goroutine: the error
it returned, the payloads it passed to `Write` of `s.PtyWriter()`, in order,
and how many times it called `s.Wait()`. -/
structure SequenceRun where
  result : Option GoError
  written : List String
  waitCalls : Nat

/-- The function `runCommandSequence` (lines 54-88) on the calling goroutine.
The goroutine it starts reads `s.PtyReader()`, writes to `os.Stdout` and sends
on `cmdDone`; the calling goroutine never receives from `cmdDone`, so nothing
flows back from it.  `Fprintf` makes one `Write` of the formatted text and
returns its error. -/
def runCommandSequence (goos : String) (s : Session) : SequenceRun :=
  let payload := full goos ++ "\r\n"
  match s.write payload with
  | some err => { result := some err, written := [payload], waitCalls := 0 }
  | none => { result := s.wait, written := [payload], waitCalls := 1 }

end sequence

namespace sequence

/-! ## The line reader of `runCommandSequence` (lines 60-74) -/

/-- The byte `\n`. -/
def LF : Nat := 0x0a
/-- The byte `\r`. -/
def CR : Nat := 0x0d

/-- The buffer given to the scanner, `sc.Buffer(make([]byte, 0, 1<<20), 1<<20)`:
its capacity and the maximum token size, both `1<<20`. -/
def maxTokenSize : Nat := 1048576

/-- The sentinel `done` of line 56, as bytes. -/
def done : List Nat := "[[PTYX_DONE]]".toList.map Char.toNat

/-- The library function `dropCR` of `bufio.ScanLines`: one trailing `\r` is
dropped. -/
def dropCR (data : List Nat) : List Nat :=
  if data.getLast? = some CR then data.dropLast else data

/-- The tokens the successive calls of `sc.Scan()` return, by the contract of
`bufio.Scanner` with the split function `bufio.ScanLines`, and whether scanning
ended with `bufio.ErrTooLong`.  `cur` is the part of the pending line already in
the buffer, the second list is what the reader still delivers; the reader
returns its final error (`io.EOF` or another) on a call of its own.  A line ends
at `\n`; an unterminated non-empty last line is a token too.  When the buffer,
of `cap` bytes, is full of a pending line without `\n`, `Scan` fails with
`ErrTooLong` and returns false. -/
def scanFrom (cap : Nat) : List Nat → List Nat → List (List Nat) × Bool
  | cur, [] =>
      if cur.length ≥ cap then ([], true)
      else if cur = [] then ([], false)
      else ([dropCR cur], false)
  | cur, b :: rest =>
      if cur.length ≥ cap then ([], true)
      else if b = LF then
        ((dropCR cur) :: (scanFrom cap [] rest).1, (scanFrom cap [] rest).2)
      else scanFrom cap (cur ++ [b]) rest

/-- The library function `strings.TrimRight(s, cutset)` for a cutset of ASCII
bytes. -/
def TrimRight (s : List Nat) (cutset : List Nat) : List Nat :=
  s.rdropWhile (fun b => cutset.contains b)

/-- The UTF-8 encodings of the runes for which `unicode.IsSpace` holds: tab,
newline, vertical tab, form feed, carriage return, space, U+0085, U+00A0,
U+1680, U+2000 to U+200A, U+2028, U+2029, U+202F, U+205F, U+3000. -/
def spaceRunes : List (List Nat) :=
  [[0x09], [0x0a], [0x0b], [0x0c], [0x0d], [0x20], [0xc2, 0x85], [0xc2, 0xa0],
   [0xe1, 0x9a, 0x80],
   [0xe2, 0x80, 0x80], [0xe2, 0x80, 0x81], [0xe2, 0x80, 0x82], [0xe2, 0x80, 0x83],
   [0xe2, 0x80, 0x84], [0xe2, 0x80, 0x85], [0xe2, 0x80, 0x86], [0xe2, 0x80, 0x87],
   [0xe2, 0x80, 0x88], [0xe2, 0x80, 0x89], [0xe2, 0x80, 0x8a],
   [0xe2, 0x80, 0xa8], [0xe2, 0x80, 0xa9], [0xe2, 0x80, 0xaf], [0xe2, 0x81, 0x9f],
   [0xe3, 0x80, 0x80]]

/-- The byte sequence `s` is white space: the encodings of runes for which
`unicode.IsSpace` holds, one after the other. -/
def WhiteSpace (s : List Nat) : Prop :=
  ∃ qs : List (List Nat), (∀ q ∈ qs, q ∈ spaceRunes) ∧ s = qs.flatten

/-- One of the given byte sequences removed from the front of `s`, if `s`
starts with one. -/
def stripOne (seqs : List (List Nat)) (s : List Nat) : Option (List Nat) :=
  seqs.findSome? (fun q => if q.isPrefixOf s then some (s.drop q.length) else none)

/-- The given byte sequences removed from the front of `s` as long as there is
one, at most `fuel` times. -/
def trimLeftSeqs (seqs : List (List Nat)) : Nat → List Nat → List Nat
  | 0, s => s
  | fuel + 1, s =>
      match stripOne seqs s with
      | some s1 => trimLeftSeqs seqs fuel s1
      | none => s

/-- The library function `strings.TrimSpace(s)`: leading and trailing white
space, as `unicode.IsSpace` has it, removed. -/
def TrimSpace (s : List Nat) : List Nat :=
  let l := trimLeftSeqs spaceRunes s.length s
  (trimLeftSeqs (spaceRunes.map List.reverse) l.length l.reverse).reverse

/-- The non-blocking send of lines 68-71 on `cmdDone`, a channel with room for
one value that nobody receives from: the number of values held after it. -/
def trySend (pending : Nat) : Nat :=
  if pending < 1 then pending + 1 else pending

/-- The channel `cmdDone` after the loop body has run for the given lines. -/
def markDone : Nat → List (List Nat) → Nat
  | pending, [] => pending
  | pending, line :: rest =>
      markDone (if TrimSpace line = done then trySend pending else pending) rest

/-- What the goroutine of lines 60-74 has done when its loop ends: the lines
passed to `Fprintln(os.Stdout, line)`, in order; the number of values held by
`cmdDone`; whether the scanner stopped on `ErrTooLong`. -/
structure LineReaderRun where
  lines : List (List Nat)
  cmdDone : Nat
  tooLong : Bool
  deriving DecidableEq, Repr

/-- The goroutine of lines 60-74, run until `sc.Scan()` returns false, on the
bytes the session's `PtyReader()` delivers. -/
def lineReader (ptyOut : List Nat) : LineReaderRun :=
  let tokens := scanFrom maxTokenSize [] ptyOut
  let lines := tokens.1.map (fun text => TrimRight text [CR])
  { lines := lines, cmdDone := markDone 0 lines, tooLong := tokens.2 }

/-- The bytes `Fprintln` writes to the sink for the given lines: each line
followed by a newline. -/
def sinkBytes (lines : List (List Nat)) : List Nat :=
  (lines.map (fun line => line ++ [LF])).flatten

/-- The lines of an output split on `\n`: the pieces between newlines, the
piece after the last newline counting only when it is not empty. -/
def outputLines (out : List Nat) : List (List Nat) :=
  if (out.splitOn LF).getLast? = some [] then (out.splitOn LF).dropLast else out.splitOn LF

end sequence

namespace echo

/-! ## The echo loop of `cmd/echo/main.go` -/

/-- The error of a `Read`: `io.EOF`, or another error with its text. -/
inductive ReadErr
  | EOF
  | other (msg : String)
  deriving DecidableEq, Repr

/-- What one call `in.Read(buf)` did: it returned `n = len(data)`, at most the
1024 bytes of `buf`, and `err`, and left `data` in `buf[:n]`. -/
structure ReadOutcome where
  data : List Nat
  err : Option ReadErr
  deriving DecidableEq, Repr

/-- One call `fmt.Fprintf(out, "read %d bytes: %q\r\n", n, data)`, by its
arguments. -/
structure EchoLine where
  n : Nat
  data : List Nat
  deriving DecidableEq, Repr

/-- What `echoLoop` wrote: the lines on `out`, and on `errOut` the texts of the
errors reported by `read error: %v`. -/
structure EchoRun where
  out : List EchoLine
  errOut : List String
  deriving DecidableEq, Repr

/-- The library function `bytes.IndexByte(b, c)`: the index of the first `c` in
`b`, or -1. -/
def IndexByte (b : List Nat) (c : Nat) : Int :=
  if c ∈ b then (b.indexOf c : Nat) else -1

/-- The function `echoLoop` (lines 16-37), the reader returning the listed
outcomes and then 0 bytes with `io.EOF`. -/
def echoLoop : List ReadOutcome → EchoRun
  | [] => { out := [], errOut := [] }
  | r :: rest =>
      let n := r.data.length
      let stopIdx := IndexByte r.data 3
      if n > 0 ∧ stopIdx ≠ -1 then
        -- lines 22-27: echo what precedes the byte 3, leave the loop
        { out := if stopIdx > 0 then [⟨stopIdx.toNat, r.data.take stopIdx.toNat⟩] else [],
          errOut := [] }
      else
        let line : List EchoLine := if n > 0 then [⟨n, r.data⟩] else []
        match r.err with
        | some e =>
            -- lines 30-35
            { out := line,
              errOut := match e with
                | .EOF => []
                | .other msg => [msg] }
        | none =>
            { out := line ++ (echoLoop rest).out, errOut := (echoLoop rest).errOut }

/-- A reader that delivers the given chunks, one per call, and then ends with
`io.EOF`. -/
def ofChunks (chunks : List (List Nat)) : List ReadOutcome :=
  chunks.map (fun c => ⟨c, none⟩)

/-- The line echoing a whole chunk. -/
def wholeLine (c : List Nat) : EchoLine := ⟨c.length, c⟩

/-- The bytes echoed by a run, concatenated. -/
def echoed (run : EchoRun) : List Nat :=
  (run.out.map (fun l => l.data)).flatten

end echo

namespace flag

/-! ## The library package `flag`, as `ParseRunOpts` and `ParseResizeOpts` use it -/

/-- The variables the flags of the two flag sets are bound to: `cols`, `rows`,
`dir` and `env` (`none` is the nil slice). -/
structure Vars where
  cols : Int
  rows : Int
  dir : String
  env : Option (List String)
  deriving DecidableEq, Repr

/-- The errors of `FlagSet.Parse`: `bad flag syntax: s`, `flag provided but not
defined: -name`, `flag.ErrHelp`, `flag needs an argument: -name`, and `invalid
value v for flag -name: err`. -/
inductive Error
  | badSyntax (s : String)
  | notDefined (name : String)
  | help
  | needsArgument (name : String)
  | invalidValue (value : String) (name : String)
  deriving DecidableEq, Repr

/-- How `parseOne` reads one argument by its text alone: not a flag (shorter
than two bytes or not starting with `-`), the terminator `--`, a flag with bad
syntax, or a flag with its name and, after a `=`, its value. -/
inductive Arg
  | positional
  | terminator
  | bad
  | flag (name : String) (value : Option String)
  deriving DecidableEq, Repr

/-- The textual part of `FlagSet.parseOne`. -/
def classify (s : String) : Arg :=
  match s.data with
  | c0 :: c1 :: cs =>
      if c0 ≠ '-' then Arg.positional
      else if c1 = '-' ∧ cs = [] then Arg.terminator
      else
        -- name := s[numMinuses:]
        let name := if c1 = '-' then cs else c1 :: cs
        match name with
        | [] => Arg.bad
        | n0 :: _ =>
            if n0 = '-' ∨ n0 = '=' then Arg.bad
            else
              match name.span (fun c => c != '=') with
              | (nm, []) => Arg.flag (String.mk nm) none
              | (nm, _ :: v) => Arg.flag (String.mk nm) (some (String.mk v))
  | _ => Arg.positional

/-- The flags defined on a flag set (`f.formal`): for a defined name, what
`Value.Set` does to the variables with a value, `none` being its error.  No
flag of the two flag sets is a boolean flag. -/
abbrev Formal := String → Option (String → Vars → Option Vars)

/-- The call `FlagSet.Parse(arguments)` with `flag.ContinueOnError`: the
variables after the flags, with the arguments left (`fs.Args()`), or the
error. -/
def parse (formal : Formal) : Vars → List String → Except Error (Vars × List String)
  | st, [] => .ok (st, [])
  | st, s :: rest =>
      match classify s with
      | .positional => .ok (st, s :: rest)
      | .terminator => .ok (st, rest)
      | .bad => .error (.badSyntax s)
      | .flag name value =>
          match formal name with
          | none =>
              if name = "help" ∨ name = "h" then .error .help
              else .error (.notDefined name)
          | some set =>
              match value with
              | some v =>
                  match set v st with
                  | none => .error (.invalidValue v name)
                  | some st1 => parse formal st1 rest
              | none =>
                  match rest with
                  | [] => .error (.needsArgument name)
                  | v :: rest1 =>
                      match set v st with
                      | none => .error (.invalidValue v name)
                      | some st1 => parse formal st1 rest1

/-- The names of the flags in the flag section of an argument list: those of
the arguments read as flags, each taking its value from a `=` or from the next
argument, up to the first argument that is not a flag. -/
def flagNames : List String → List String
  | [] => []
  | s :: rest =>
      match classify s with
      | .flag name (some _) => name :: flagNames rest
      | .flag name none =>
          match rest with
          | [] => [name]
          | _ :: rest1 => name :: flagNames rest1
      | _ => []

end flag

namespace run

/-! ## `ParseRunOpts` (`cmd/run/options.go`) and `ParseResizeOpts` (`cmd/resize/options.go`) -/

/-- Modelled from the spec: the type `ptyx.SpawnOpts`, declared in the root
package of the library, by the fields the two parsers set; `none` is the nil
slice. -/
structure SpawnOpts where
  Prog : String
  Args : Option (List String)
  Cols : Int
  Rows : Int
  Dir : String
  Env : Option (List String)
  deriving DecidableEq, Repr

/-- The zero value `ptyx.SpawnOpts{}`. -/
def SpawnOpts.zero : SpawnOpts :=
  { Prog := "", Args := none, Cols := 0, Rows := 0, Dir := "", Env := none }

/-- The error returned by the parsers: that of `fs.Parse`, or
`fmt.Errorf("no program specified")`. -/
inductive ParseError
  | flag (e : flag.Error)
  | noProgram
  deriving DecidableEq, Repr

/-- The variables before parsing: `cols` and `rows` at the default 0, `dir` at
the default `""`, `env` nil. -/
def initVars : flag.Vars := { cols := 0, rows := 0, dir := "", env := none }

/-- The method `multiString.Set` (lines 53-56): the value is appended. -/
def multiStringSet (s : String) (m : Option (List String)) : Option (List String) :=
  some (m.getD [] ++ [s])

/-- The flags of `ParseRunOpts` (lines 25-28).  `ParseInt` is the library call
`strconv.ParseInt(s, 0, strconv.IntSize)` that `intValue.Set` makes, `none`
being its error. -/
def runFormal (ParseInt : String → Option Int) : flag.Formal := fun name =>
  if name = "cols" then some (fun v st => (ParseInt v).map (fun n => { st with cols := n }))
  else if name = "rows" then some (fun v st => (ParseInt v).map (fun n => { st with rows := n }))
  else if name = "dir" then some (fun v st => some { st with dir := v })
  else if name = "env" then some (fun v st => some { st with env := multiStringSet v st.env })
  else none

/-- The flags of `ParseResizeOpts` (lines 20-21). -/
def resizeFormal (ParseInt : String → Option Int) : flag.Formal := fun name =>
  if name = "cols" then some (fun v st => (ParseInt v).map (fun n => { st with cols := n }))
  else if name = "rows" then some (fun v st => (ParseInt v).map (fun n => { st with rows := n }))
  else none

/-- The function `ParseRunOpts` (lines 20-48); the second component is the
error, `none` being nil. -/
def ParseRunOpts (ParseInt : String → Option Int) (argv : List String) :
    SpawnOpts × Option ParseError :=
  match flag.parse (runFormal ParseInt) initVars argv with
  | .error err => (SpawnOpts.zero, some (.flag err))
  | .ok (st, args) =>
      match args with
      | prog :: rest =>
          ({ Prog := prog, Args := some rest, Cols := st.cols, Rows := st.rows, Dir := st.dir,
             Env := st.env }, none)
      | [] => (SpawnOpts.zero, some .noProgram)

/-- The function `ParseResizeOpts` (`cmd/resize/options.go`, lines 17-39). -/
def ParseResizeOpts (ParseInt : String → Option Int) (argv : List String) :
    SpawnOpts × Option ParseError :=
  match flag.parse (resizeFormal ParseInt) initVars argv with
  | .error err => (SpawnOpts.zero, some (.flag err))
  | .ok (st, args) =>
      match args with
      | prog :: rest =>
          ({ Prog := prog, Args := some rest, Cols := st.cols, Rows := st.rows, Dir := "",
             Env := none }, none)
      | [] => (SpawnOpts.zero, some .noProgram)

/-- One option of the flag section in the form `-name value`. -/
inductive FlagOpt
  | cols (n : String)
  | rows (n : String)
  | dir (d : String)
  | env (kv : String)
  deriving DecidableEq, Repr

/-- The two arguments of an option. -/
def FlagOpt.argv : FlagOpt → List String
  | .cols n => ["-cols", n]
  | .rows n => ["-rows", n]
  | .dir d => ["-dir", d]
  | .env kv => ["-env", kv]

/-- The arguments of a sequence of options. -/
def flagArgs (opts : List FlagOpt) : List String := (opts.map FlagOpt.argv).flatten

/-- An option is well formed: the value of `-cols` and of `-rows` is an
integer for `ParseInt`. -/
def FlagOpt.WellFormed (ParseInt : String → Option Int) : FlagOpt → Prop
  | .cols n => ParseInt n ≠ none
  | .rows n => ParseInt n ≠ none
  | .dir _ => True
  | .env _ => True

/-- The values given to `-cols`, in order. -/
def colsValues (ParseInt : String → Option Int) (opts : List FlagOpt) : List Int :=
  opts.filterMap (fun o => match o with | .cols n => ParseInt n | _ => none)

/-- The values given to `-rows`, in order. -/
def rowsValues (ParseInt : String → Option Int) (opts : List FlagOpt) : List Int :=
  opts.filterMap (fun o => match o with | .rows n => ParseInt n | _ => none)

/-- The values given to `-dir`, in order. -/
def dirValues (opts : List FlagOpt) : List String :=
  opts.filterMap (fun o => match o with | .dir d => some d | _ => none)

/-- The values given to `-env`, in order. -/
def envValues (opts : List FlagOpt) : List String :=
  opts.filterMap (fun o => match o with | .env kv => some kv | _ => none)

/-- The name of the flag of an option. -/
def FlagOpt.name : FlagOpt → String
  | .cols _ => "cols"
  | .rows _ => "rows"
  | .dir _ => "dir"
  | .env _ => "env"

/-- The variables a sequence of options leaves: for `cols`, `rows` and `dir`
the last value given, or the value before when none is given; for `env` the
values given, appended in order. -/
def applyOpts (ParseInt : String → Option Int) (st : flag.Vars) (opts : List FlagOpt) :
    flag.Vars :=
  { cols := (colsValues ParseInt opts).getLast?.getD st.cols,
    rows := (rowsValues ParseInt opts).getLast?.getD st.rows,
    dir := (dirValues opts).getLast?.getD st.dir,
    env := if envValues opts = [] then st.env else some (st.env.getD [] ++ envValues opts) }

/-- A sequence of options with `-cols` and `-rows` only. -/
def SizeOnly (opts : List FlagOpt) : Prop :=
  ∀ o ∈ opts, o.name = "cols" ∨ o.name = "rows"

/-- The argument `s`, with `rest` after it, is an unknown or malformed flag for
a flag set: its syntax is bad; or its name is not defined; or it has no value,
neither after a `=` nor in a next argument; or its value, after a `=` or in the
next argument, is one the `Set` of its flag refuses. -/
def Rejected (formal : flag.Formal) (s : String) (rest : List String) : Prop :=
  flag.classify s = flag.Arg.bad ∨
  (∃ name value, flag.classify s = flag.Arg.flag name value ∧ formal name = none) ∨
  (∃ name, flag.classify s = flag.Arg.flag name none ∧ rest = []) ∨
  (∃ name v set, flag.classify s = flag.Arg.flag name (some v) ∧ formal name = some set ∧
    ∀ st, set v st = none) ∨
  (∃ name v rest1 set, flag.classify s = flag.Arg.flag name none ∧ rest = v :: rest1 ∧
    formal name = some set ∧ ∀ st, set v st = none)

/-- A stand-in for `strconv.ParseInt` in examples: plain decimal digits. -/
def parseDecimal (s : String) : Option Int :=
  if s.data ≠ [] ∧ s.data.all (fun c => decide (48 ≤ c.toNat) && decide (c.toNat ≤ 57)) then
    some ((s.data.foldl (fun n c => 10 * n + (c.toNat - 48)) 0 : Nat) : Int)
  else none

end run

namespace event

/-! ## Basic facts about `run` -/

theorem flush_nil : flush [] = [] := rfl

theorem flush_of_ne_nil {tb : List Rune} (h : tb ≠ []) :
    flush tb = [⟨EventType.EventText, tb⟩] := by
  cases tb with
  | nil => exact absurd rfl h
  | cons x xs => simp [flush]

theorem ofRunes_append (a b : List Rune) : ofRunes (a ++ b) = ofRunes a ++ ofRunes b := by
  simp [ofRunes]

theorem ofRunes_cons (r : Rune) (a : List Rune) :
    ofRunes (r :: a) = ReadResult.ok r :: ofRunes a := rfl

theorem ofRunes_nil : ofRunes [] = [] := rfl

theorem run_text_esc (tb : List Rune) (rest : List ReadResult) :
    run (.text tb) (.ok ESC :: rest) = flush tb ++ run .esc rest := by
  simp [run]

theorem run_text_control {r : Rune} (tb : List Rune) (rest : List ReadResult)
    (h : isControl r = true) :
    run (.text tb) (.ok r :: rest)
      = flush tb ++ ⟨EventType.EventControl, [r]⟩ :: run (.text []) rest := by
  have hr : r ≠ ESC := by
    intro e; subst e; revert h; decide
  simp [run, hr, h]

theorem run_text_plain {r : Rune} (tb : List Rune) (rest : List ReadResult)
    (h1 : r ≠ ESC) (h2 : isControl r = false) :
    run (.text tb) (.ok r :: rest) = run (.text (tb ++ [r])) rest := by
  simp [run, h1, h2]

theorem run_esc_other {c : Rune} (rest : List ReadResult) (h : c ≠ LBRACKET) :
    run .esc (.ok c :: rest) = ⟨EventType.EventUnhandled, [c]⟩ :: run (.text []) rest := by
  simp [run, h]

theorem run_esc_bracket (rest : List ReadResult) :
    run .esc (.ok LBRACKET :: rest) = run (.csi []) rest := by
  simp [run]

/-- Inside a CSI sequence, runes outside `0x40..0x7E` are collected until the
first rune inside that range, which closes the ANSI event. -/
theorem run_csi_closed (p : List Rune) (f : Rune) (rest : List ReadResult)
    (hp : ∀ x ∈ p, isFinal x = false) (hf : isFinal f = true) (acc : List Rune) :
    run (.csi acc) (ofRunes p ++ .ok f :: rest)
      = ⟨EventType.EventANSI, acc ++ p ++ [f]⟩ :: run (.text []) rest := by
  induction p generalizing acc with
  | nil => simp [ofRunes, run, hf]
  | cons x xs ih =>
    have hx : isFinal x = false := hp x (List.mem_cons_self _ _)
    have hxs : ∀ y ∈ xs, isFinal y = false := fun y hy => hp y (List.mem_cons_of_mem _ hy)
    simp only [ofRunes_cons, List.cons_append, run, hx]
    simpa using ih hxs (acc ++ [x])

/-- A CSI sequence cut by the end of the input is still written, with the
runes collected so far. -/
theorem run_csi_open (p : List Rune) (hp : ∀ x ∈ p, isFinal x = false) (acc : List Rune) :
    run (.csi acc) (ofRunes p) = [⟨EventType.EventANSI, acc ++ p⟩] := by
  induction p generalizing acc with
  | nil => simp [ofRunes, run]
  | cons x xs ih =>
    have hx : isFinal x = false := hp x (List.mem_cons_self _ _)
    have hxs : ∀ y ∈ xs, isFinal y = false := fun y hy => hp y (List.mem_cons_of_mem _ hy)
    simp only [ofRunes_cons, run, hx]
    simpa using ih hxs (acc ++ [x])

/-- After a prefix of whole tokens the scanner is back at the top of the outer
loop: the output is the events of the prefix followed by the run on what
follows, started with the text still pending. -/
theorem run_whole_prefix {a : List Rune} (ha : Whole a) (tb : List Rune) :
    ∃ (ev : List Event) (pending : List Rune), ∀ rest : List ReadResult,
      run (.text tb) (ofRunes a ++ rest) = ev ++ run (.text pending) rest := by
  induction ha generalizing tb with
  | nil => exact ⟨[], tb, fun rest => by simp [ofRunes]⟩
  | plain r a hr _ ih =>
    cases hc : isControl r with
    | true =>
      obtain ⟨ev, pending, h⟩ := ih []
      refine ⟨flush tb ++ ⟨EventType.EventControl, [r]⟩ :: ev, pending, fun rest => ?_⟩
      simp [ofRunes_cons, run_text_control tb _ hc, h rest]
    | false =>
      obtain ⟨ev, pending, h⟩ := ih (tb ++ [r])
      refine ⟨ev, pending, fun rest => ?_⟩
      simp [ofRunes_cons, run_text_plain tb _ hr hc, h rest]
  | two c a hc _ ih =>
    obtain ⟨ev, pending, h⟩ := ih []
    refine ⟨flush tb ++ ⟨EventType.EventUnhandled, [c]⟩ :: ev, pending, fun rest => ?_⟩
    simp [ofRunes_cons, run_text_esc, run_esc_other _ hc, h rest]
  | csi p f a hp hf _ ih =>
    obtain ⟨ev, pending, h⟩ := ih []
    refine ⟨flush tb ++ ⟨EventType.EventANSI, p ++ [f]⟩ :: ev, pending, fun rest => ?_⟩
    have := run_csi_closed p f (ofRunes a ++ rest) hp hf []
    simp only [List.nil_append] at this
    simp [ofRunes_cons, ofRunes_append, run_text_esc, run_esc_bracket, this, h rest]

/-- The output on a prefix of whole tokens followed by more input, in terms of
the output on the prefix alone, when what follows starts with ESC. -/
theorem processStream_whole_esc {a : List Rune} (ha : Whole a) (rest : List ReadResult) :
    processStream (ofRunes a ++ .ok ESC :: rest)
      = processStream (ofRunes a) ++ run .esc rest := by
  obtain ⟨ev, pending, h⟩ := run_whole_prefix ha []
  have h1 := h (.ok ESC :: rest)
  have h2 := h []
  simp only [List.append_nil] at h2
  simp [processStream, h1, h2, run_text_esc, run]

/-! ## Escape sequences (C2 - C6) -/

/-- C2: an input that begins with ESC `[` p f, where no rune of `p` lies in
`0x40..0x7E` and `f` does, yields one ANSI event with payload `p` followed by
`f`, and the rest of the input is then processed as an input of its own. -/
theorem processStream_csi_closed (p : List Rune) (f : Rune) (rest : List ReadResult)
    (hp : ∀ x ∈ p, isFinal x = false) (hf : isFinal f = true) :
    processStream (ofRunes (ESC :: LBRACKET :: (p ++ [f])) ++ rest)
      = ⟨EventType.EventANSI, p ++ [f]⟩ :: processStream rest := by
  have h := run_csi_closed p f rest hp hf []
  simp only [List.nil_append] at h
  simp [processStream, ofRunes_cons, ofRunes_append, ofRunes_nil, run_text_esc,
    run_esc_bracket, flush_nil, h]

theorem processStream_csi_closed_witness :
    processStream (ofRunes (ESC :: LBRACKET :: (runes "31" ++ [0x6d])) ++ ofRunes (runes "red"))
      = ⟨EventType.EventANSI, runes "31" ++ [0x6d]⟩ :: processStream (ofRunes (runes "red")) :=
  processStream_csi_closed (runes "31") 0x6d (ofRunes (runes "red")) (by decide) (by decide)

/-- C3, as the code has it: when the input ends with ESC `[` right after a
prefix of whole tokens, the events of the prefix are followed by exactly one
ANSI event, whose payload is empty. -/
theorem processStream_csi_empty_at_end (a : List Rune) (ha : Whole a) :
    processStream (ofRunes (a ++ [ESC, LBRACKET]))
      = processStream (ofRunes a) ++ [⟨EventType.EventANSI, []⟩] := by
  have h := processStream_whole_esc ha [.ok LBRACKET]
  simpa [ofRunes_append, ofRunes_cons, ofRunes_nil, run] using h

theorem processStream_csi_empty_at_end_witness :
    processStream (ofRunes ([0x41] ++ [ESC, LBRACKET]))
      = processStream (ofRunes [0x41]) ++ [⟨EventType.EventANSI, []⟩] :=
  processStream_csi_empty_at_end [0x41] (Whole.plain 0x41 [] (by decide) Whole.nil)

/-- C3 fails as stated: on the input `hello` ESC `[` the output ends with an
ANSI event (of empty payload) that the input before the ESC does not give. -/
theorem processStream_csi_empty_counterexample :
    processStream (ofRunes (runes "hello\x1b["))
        = [⟨EventType.EventText, runes "hello"⟩, ⟨EventType.EventANSI, []⟩]
      ∧ processStream (ofRunes (runes "hello")) = [⟨EventType.EventText, runes "hello"⟩] := by
  decide

/-- C4: when an ESC read by the outer loop (it follows a prefix of whole
tokens) is followed by a rune `c` other than `[`, the output is the events of
the prefix, one Unhandled event with payload `c` alone, and then the output of
the rest of the input processed on its own: `c` gives no other event, whatever
rune it is, and scanning resumes after it. -/
theorem processStream_unhandled (a : List Rune) (c : Rune) (rest : List ReadResult)
    (ha : Whole a) (hc : c ≠ LBRACKET) :
    processStream (ofRunes (a ++ [ESC, c]) ++ rest)
      = processStream (ofRunes a) ++ ⟨EventType.EventUnhandled, [c]⟩ :: processStream rest := by
  have h := processStream_whole_esc ha (.ok c :: rest)
  simpa [ofRunes_append, ofRunes_cons, ofRunes_nil, run_esc_other _ hc, processStream] using h

theorem processStream_unhandled_witness :
    processStream (ofRunes ([0x41] ++ [ESC, CR]) ++ ofRunes [LF])
      = processStream (ofRunes [0x41]) ++ ⟨EventType.EventUnhandled, [CR]⟩
          :: processStream (ofRunes [LF]) :=
  processStream_unhandled [0x41] CR (ofRunes [LF])
    (Whole.plain 0x41 [] (by decide) Whole.nil) (by decide)

/-- C5: when the input ends inside a CSI sequence (ESC `[` read after a prefix
of whole tokens) with a non-empty run `p` of runes outside `0x40..0x7E` read
after the `[`, an ANSI event with payload `p` is still written, as the last
event. -/
theorem processStream_csi_truncated (a p : List Rune) (ha : Whole a) (_hne : p ≠ [])
    (hp : ∀ x ∈ p, isFinal x = false) :
    processStream (ofRunes (a ++ ESC :: LBRACKET :: p))
      = processStream (ofRunes a) ++ [⟨EventType.EventANSI, p⟩] := by
  have h := processStream_whole_esc ha (.ok LBRACKET :: ofRunes p)
  have h2 := run_csi_open p hp []
  simp only [List.nil_append] at h2
  simpa [ofRunes_append, ofRunes_cons, run_esc_bracket, h2] using h

theorem processStream_csi_truncated_witness :
    processStream (ofRunes (runes "text" ++ ESC :: LBRACKET :: runes "1;31"))
      = processStream (ofRunes (runes "text")) ++ [⟨EventType.EventANSI, runes "1;31"⟩] :=
  processStream_csi_truncated (runes "text") (runes "1;31")
    (Whole.plain _ _ (by decide) (Whole.plain _ _ (by decide)
      (Whole.plain _ _ (by decide) (Whole.plain _ _ (by decide) Whole.nil))))
    (by decide) (by decide)

/-- A text without ESC is a sequence of whole tokens. -/
theorem whole_of_no_esc (t : List Rune) (ht : ∀ x ∈ t, x ≠ ESC) : Whole t := by
  induction t with
  | nil => exact Whole.nil
  | cons x xs ih =>
    exact Whole.plain x xs (ht x (List.mem_cons_self _ _))
      (ih (fun y hy => ht y (List.mem_cons_of_mem _ hy)))

/-! ## Text and Control payloads (C1) -/

theorem textControlPayload_append (xs ys : List Event) :
    textControlPayload (xs ++ ys) = textControlPayload xs ++ textControlPayload ys := by
  induction xs with
  | nil => rfl
  | cons e es ih =>
    by_cases h : e.Kind = EventType.EventText ∨ e.Kind = EventType.EventControl
    · simp [textControlPayload, h, ih]
    · simp [textControlPayload, h, ih]

theorem textControlPayload_flush (tb : List Rune) : textControlPayload (flush tb) = tb := by
  cases tb with
  | nil => rfl
  | cons x xs => simp [flush, textControlPayload]

/-- On an input that ends naturally the pending text comes first in the
concatenated Text and Control payloads. -/
theorem textControlPayload_run_text (s : List Rune) (tb : List Rune) :
    textControlPayload (run (.text tb) (ofRunes s))
      = tb ++ textControlPayload (run (.text []) (ofRunes s)) := by
  induction s generalizing tb with
  | nil => simp [ofRunes, run, textControlPayload_flush, flush_nil, textControlPayload]
  | cons r rest ih =>
    by_cases hr : r = ESC
    · subst hr
      simp [ofRunes_cons, run_text_esc, textControlPayload_append, textControlPayload_flush,
        flush_nil]
    · cases hc : isControl r with
      | true =>
        simp [ofRunes_cons, run_text_control _ _ hc, textControlPayload_append,
          textControlPayload_flush, flush_nil]
      | false =>
        simp only [ofRunes_cons, run_text_plain _ _ hr hc, List.nil_append]
        rw [ih (tb ++ [r]), ih [r]]
        simp

theorem textControlPayload_processStream_cons {r : Rune} (rest : List Rune) (hr : r ≠ ESC) :
    textControlPayload (processStream (ofRunes (r :: rest)))
      = r :: textControlPayload (processStream (ofRunes rest)) := by
  cases hc : isControl r with
  | true =>
    simp [processStream, ofRunes_cons, run_text_control _ _ hc, flush_nil, textControlPayload]
  | false =>
    simp only [processStream, ofRunes_cons, run_text_plain _ _ hr hc, List.nil_append]
    rw [textControlPayload_run_text rest [r]]
    simp

/-- A rune sequence either has no rune in `0x40..0x7E`, or splits at its first
such rune. -/
theorem split_at_final (q : List Rune) :
    (∀ x ∈ q, isFinal x = false) ∨
    ∃ (p : List Rune) (f : Rune) (rest : List Rune),
      q = p ++ f :: rest ∧ (∀ x ∈ p, isFinal x = false) ∧ isFinal f = true := by
  induction q with
  | nil => left; simp
  | cons x xs ih =>
    cases hx : isFinal x with
    | true => exact Or.inr ⟨[], x, xs, rfl, by simp, hx⟩
    | false =>
      rcases ih with h | ⟨p, f, rest, he, hp, hf⟩
      · left
        intro y hy
        rcases List.mem_cons.1 hy with e | hm
        · exact e ▸ hx
        · exact h y hm
      · right
        refine ⟨x :: p, f, rest, by simp [he], ?_, hf⟩
        intro y hy
        rcases List.mem_cons.1 hy with e | hm
        · exact e ▸ hx
        · exact hp y hm

theorem stripEsc_payload {s out : List Rune} (h : StripEsc s out) :
    out = textControlPayload (processStream (ofRunes s)) := by
  induction h with
  | nil => rfl
  | plain r rest out hr _ ih =>
    rw [textControlPayload_processStream_cons rest hr, ← ih]
  | lone => rfl
  | two c rest out hc _ ih =>
    rw [ih]
    simp [processStream, ofRunes_cons, run_text_esc, run_esc_other _ hc, flush_nil,
      textControlPayload]
  | csi p f rest out hp hf _ ih =>
    have h := run_csi_closed p f (ofRunes rest) hp hf []
    simp only [List.nil_append] at h
    have e : ofRunes (p ++ f :: rest) = ofRunes p ++ ReadResult.ok f :: ofRunes rest := by
      simp [ofRunes]
    rw [ih]
    simp [processStream, ofRunes_cons, run_text_esc, run_esc_bracket, flush_nil, e, h,
      textControlPayload]
  | csiOpen p hp =>
    have h2 := run_csi_open p hp []
    simp only [List.nil_append] at h2
    simp [processStream, ofRunes_cons, run_text_esc, run_esc_bracket, flush_nil, h2,
      textControlPayload]

theorem stripEsc_processStream_aux (n : Nat) :
    ∀ s : List Rune, s.length ≤ n →
      StripEsc s (textControlPayload (processStream (ofRunes s))) := by
  induction n with
  | zero =>
    intro s hs
    have : s = [] := List.length_eq_zero.1 (Nat.le_zero.1 hs)
    subst this
    exact StripEsc.nil
  | succ n ih =>
    intro s hs
    match s, hs with
    | [], _ => exact StripEsc.nil
    | r :: rest, hs =>
      have hrest : rest.length ≤ n := by simpa using hs
      by_cases hr : r = ESC
      · subst hr
        match rest, hrest with
        | [], _ => exact StripEsc.lone
        | c :: rest2, hrest =>
          have hrest2 : rest2.length ≤ n := by
            simp only [List.length_cons] at hrest; omega
          by_cases hc : c = LBRACKET
          · subst hc
            rcases split_at_final rest2 with hno | ⟨p, f, tl, he, hp, hf⟩
            · have := stripEsc_payload (StripEsc.csiOpen rest2 hno)
              rw [← this]
              exact StripEsc.csiOpen rest2 hno
            · subst he
              have htl : tl.length ≤ n := by
                simp only [List.length_append, List.length_cons] at hrest2; omega
              have hs := StripEsc.csi p f tl _ hp hf (ih tl htl)
              have := stripEsc_payload hs
              rw [← this]
              exact hs
          · have hs := StripEsc.two c rest2 _ hc (ih rest2 hrest2)
            have := stripEsc_payload hs
            rw [← this]
            exact hs
      · rw [textControlPayload_processStream_cons rest hr]
        exact StripEsc.plain r rest _ hr (ih rest hrest)

/-- C1: for every rune sequence `s`, the concatenated payloads of the Text and
Control events of `processStream` on `s` are `s` with every escape sequence
removed: they satisfy `StripEsc s`, and nothing else does. -/
theorem processStream_payload_strips_escapes (s out : List Rune) :
    StripEsc s out ↔ out = textControlPayload (processStream (ofRunes s)) := by
  constructor
  · exact stripEsc_payload
  · intro h
    subst h
    exact stripEsc_processStream_aux s.length s (Nat.le_refl _)

/-! ## Inputs without ESC (C7) -/

theorem isControl_iff (r : Rune) : isControl r = true ↔ r = CR ∨ r = LF := by
  simp [isControl]

theorem groupEvent_text {g : List Rune} (h : ∀ x ∈ g, isControl x = false) :
    groupEvent g = ⟨EventType.EventText, g⟩ := by
  have : g.any isControl = false := by
    simpa [List.any_eq_false] using h
  simp [groupEvent, this]

theorem groupEvent_control {c : Rune} (h : isControl c = true) :
    groupEvent [c] = ⟨EventType.EventControl, [c]⟩ := by
  simp [groupEvent, h]

/-- The grouping loop of `List.splitBy` and the scanner agree on an ESC-free
input, whether the rune last read is text or a control character. -/
theorem splitBy_loop_events (as : List Rune) :
    ∀ (ag : Rune) (g : List Rune) (gs : List (List Rune)), (∀ x ∈ as, x ≠ ESC) →
      (isControl ag = false → (∀ x ∈ g, isControl x = false) →
        (List.splitBy.loop sameTextRun as ag g gs).map groupEvent
          = gs.reverse.map groupEvent ++ run (.text (g.reverse ++ [ag])) (ofRunes as)) ∧
      (isControl ag = true →
        (List.splitBy.loop sameTextRun as ag [] gs).map groupEvent
          = gs.reverse.map groupEvent
              ++ ⟨EventType.EventControl, [ag]⟩ :: run (.text []) (ofRunes as)) := by
  induction as with
  | nil =>
    intro ag g gs _
    constructor
    · intro hag hg
      have hall : ∀ x ∈ g.reverse ++ [ag], isControl x = false := by
        intro x hx
        rcases List.mem_append.1 hx with h | h
        · exact hg x (List.mem_reverse.1 h)
        · rw [List.mem_singleton.1 h]; exact hag
      have hne : g.reverse ++ [ag] ≠ [] := by simp
      simp [List.splitBy.loop, ofRunes_nil, run, flush_of_ne_nil hne, groupEvent_text hall]
    · intro hag
      simp [List.splitBy.loop, ofRunes_nil, run, flush_nil, groupEvent_control hag]
  | cons a as ih =>
    intro ag g gs hno
    have ha : a ≠ ESC := hno a (List.mem_cons_self _ _)
    have has : ∀ x ∈ as, x ≠ ESC := fun x hx => hno x (List.mem_cons_of_mem _ hx)
    constructor
    · intro hag hg
      have hall : ∀ x ∈ g.reverse ++ [ag], isControl x = false := by
        intro x hx
        rcases List.mem_append.1 hx with h | h
        · exact hg x (List.mem_reverse.1 h)
        · rw [List.mem_singleton.1 h]; exact hag
      have hne : g.reverse ++ [ag] ≠ [] := by simp
      cases hc : isControl a with
      | false =>
        have hg2 : ∀ x ∈ ag :: g, isControl x = false := by
          intro x hx
          rcases List.mem_cons.1 hx with e | h
          · rw [e]; exact hag
          · exact hg x h
        have := (ih a (ag :: g) gs has).1 hc hg2
        simp only [List.splitBy.loop, sameTextRun, hag, hc, Bool.not_false, Bool.and_self,
          ofRunes_cons, run_text_plain _ _ ha hc]
        simpa using this
      | true =>
        have := (ih a [] ((ag :: g).reverse :: gs) has).2 hc
        simp only [List.splitBy.loop, sameTextRun, hag, hc, Bool.not_false, Bool.not_true,
          Bool.and_false, ofRunes_cons, run_text_control _ _ hc, flush_of_ne_nil hne]
        simpa [groupEvent_text hall] using this
    · intro hag
      cases hc : isControl a with
      | false =>
        have := (ih a [] ([ag] :: gs) has).1 hc (by simp)
        simp only [List.splitBy.loop, sameTextRun, hag, hc, Bool.not_false, Bool.not_true,
          Bool.false_and, ofRunes_cons, run_text_plain _ _ ha hc]
        simpa [groupEvent_control hag] using this
      | true =>
        have := (ih a [] ([ag] :: gs) has).2 hc
        simp only [List.splitBy.loop, sameTextRun, hag, hc, Bool.not_true,
          Bool.false_and, ofRunes_cons, run_text_control _ _ hc, flush_nil]
        simpa [groupEvent_control hag] using this

/-- A run of runes that are neither ESC nor control characters is gathered
into the text buffer. -/
theorem run_text_gather (t : List Rune) (ht : ∀ x ∈ t, x ≠ ESC ∧ x ≠ CR ∧ x ≠ LF)
    (tb : List Rune) (rest : List ReadResult) :
    run (.text tb) (ofRunes t ++ rest) = run (.text (tb ++ t)) rest := by
  induction t generalizing tb with
  | nil => simp [ofRunes]
  | cons x xs ih =>
    have hx := ht x (List.mem_cons_self _ _)
    have hc : isControl x = false := by
      cases h : isControl x with
      | false => rfl
      | true =>
        rcases (isControl_iff x).1 h with e | e
        · exact absurd e hx.2.1
        · exact absurd e hx.2.2
    simp only [ofRunes_cons, List.cons_append, run_text_plain _ _ hx.1 hc]
    simpa using ih (fun y hy => ht y (List.mem_cons_of_mem _ hy)) (tb ++ [x])

/-- C7: on an input without ESC the events are, in order, one Text event per
maximal non-empty run of runes other than `\r` and `\n` and one Control event
per `\r` or `\n`; and a non-empty input without ESC, `\r` and `\n` gives one
Text event whose payload is the whole input. -/
theorem processStream_plain_input :
    (∀ s : List Rune, (∀ x ∈ s, x ≠ ESC) → processStream (ofRunes s) = plainEvents s) ∧
    (∀ s : List Rune, s ≠ [] → (∀ x ∈ s, x ≠ ESC ∧ x ≠ CR ∧ x ≠ LF) →
      processStream (ofRunes s) = [⟨EventType.EventText, s⟩]) := by
  constructor
  · intro s hs
    cases s with
    | nil => rfl
    | cons a as =>
      have ha : a ≠ ESC := hs a (List.mem_cons_self _ _)
      have has : ∀ x ∈ as, x ≠ ESC := fun x hx => hs x (List.mem_cons_of_mem _ hx)
      have h := splitBy_loop_events as a [] [] has
      cases hc : isControl a with
      | false =>
        have := h.1 hc (by simp)
        simp only [plainEvents, List.splitBy, this, processStream, ofRunes_cons,
          run_text_plain _ _ ha hc]
        simp
      | true =>
        have := h.2 hc
        simp only [plainEvents, List.splitBy, this, processStream, ofRunes_cons,
          run_text_control _ _ hc, flush_nil]
        simp
  · intro s hne hs
    have h := run_text_gather s hs [] []
    simp only [List.append_nil, List.nil_append] at h
    simp [processStream, h, run, flush_of_ne_nil hne]

theorem processStream_plain_input_witness :
    processStream (ofRunes (runes "hello\nworld"))
        = [⟨EventType.EventText, runes "hello"⟩, ⟨EventType.EventControl, runes "\n"⟩,
           ⟨EventType.EventText, runes "world"⟩]
      ∧ processStream (ofRunes (runes "hello world"))
        = [⟨EventType.EventText, runes "hello world"⟩] :=
  ⟨(processStream_plain_input.1 (runes "hello\nworld") (by decide)).trans (by decide),
   processStream_plain_input.2 (runes "hello world") (by decide) (by decide)⟩

/-! ## Well-formed events (C8) and read faults (C9) -/

theorem wellFormed_flush {tb : List Rune} (h : ∀ x ∈ tb, x ≠ ESC ∧ x ≠ CR ∧ x ≠ LF) :
    ∀ e ∈ flush tb, WellFormed e := by
  intro e he
  cases tb with
  | nil => simp [flush] at he
  | cons x xs =>
    simp only [flush, List.length_cons, gt_iff_lt, Nat.zero_lt_succ, if_true,
      List.mem_singleton] at he
    subst he
    exact ⟨by simp, h⟩

theorem wellFormed_run (input : List ReadResult) :
    ∀ m : Mode, ModeOK m → ∀ e ∈ run m input, WellFormed e := by
  induction input with
  | nil =>
    intro m hm e he
    cases m with
    | text tb => exact wellFormed_flush hm e (by simpa [run] using he)
    | esc => simp [run] at he
    | csi acc =>
      simp only [run, List.mem_singleton] at he
      subst he
      trivial
  | cons x rest ih =>
    intro m hm e he
    have hnil : ModeOK (.text []) := by simp [ModeOK]
    cases m with
    | text tb =>
      cases x with
      | err er =>
        by_cases h : er = ReadErr.EOF
        · simp only [run, h, if_true] at he
          exact wellFormed_flush hm e he
        · simp [run, h] at he
      | ok r =>
        by_cases hr : r = ESC
        · subst hr
          rw [run_text_esc] at he
          rcases List.mem_append.1 he with h | h
          · exact wellFormed_flush hm e h
          · exact ih .esc trivial e h
        · cases hc : isControl r with
          | true =>
            rw [run_text_control _ _ hc] at he
            rcases List.mem_append.1 he with h | h
            · exact wellFormed_flush hm e h
            · rcases List.mem_cons.1 h with h | h
              · subst h
                exact (isControl_iff r).1 hc |>.elim (fun e1 => Or.inl (by simp [e1]))
                  (fun e1 => Or.inr (by simp [e1]))
              · exact ih (.text []) hnil e h
          | false =>
            rw [run_text_plain _ _ hr hc] at he
            refine ih (.text (tb ++ [r])) ?_ e he
            intro y hy
            rcases List.mem_append.1 hy with h | h
            · exact hm y h
            · rw [List.mem_singleton.1 h]
              refine ⟨hr, fun e1 => ?_, fun e1 => ?_⟩
              · rw [(isControl_iff r).2 (Or.inl e1)] at hc; cases hc
              · rw [(isControl_iff r).2 (Or.inr e1)] at hc; cases hc
    | esc =>
      cases x with
      | err er => exact ih (.text []) hnil e (by simpa [run] using he)
      | ok c =>
        by_cases hc : c = LBRACKET
        · subst hc
          rw [run_esc_bracket] at he
          exact ih (.csi []) trivial e he
        · rw [run_esc_other _ hc] at he
          rcases List.mem_cons.1 he with h | h
          · subst h
            exact ⟨c, rfl, hc⟩
          · exact ih (.text []) hnil e h
    | csi acc =>
      cases x with
      | err er =>
        simp only [run, List.mem_cons] at he
        rcases he with h | h
        · subst h; trivial
        · exact ih (.text []) hnil e h
      | ok r =>
        cases hf : isFinal r with
        | true =>
          simp only [run, hf, if_true, List.mem_cons] at he
          rcases he with h | h
          · subst h; trivial
          · exact ih (.text []) hnil e h
        | false =>
          simp only [run, hf] at he
          exact ih (.csi (acc ++ [r])) trivial e (by simpa using he)

/-- C8: every event `processStream` emits, on any sequence of read results, is
well-formed: a Text payload is non-empty and holds no ESC, `\r` or `\n`; a
Control payload is `\r` or `\n` alone; an Unhandled payload is one rune other
than `[`. -/
theorem processStream_events_wellFormed (input : List ReadResult) :
    ∀ e ∈ processStream input, WellFormed e :=
  wellFormed_run input (.text []) (by simp [ModeOK])

theorem processStream_events_wellFormed_witness :
    (⟨EventType.EventUnhandled, [0x5d]⟩ : Event) ∈ processStream (ofRunes (runes "a\x1b]"))
      ∧ WellFormed ⟨EventType.EventUnhandled, [0x5d]⟩ :=
  ⟨by decide,
   processStream_events_wellFormed (ofRunes (runes "a\x1b]")) ⟨EventType.EventUnhandled, [0x5d]⟩
     (by decide)⟩

/-- C9 fails as stated: a stream that faults after `a` and newline and a stream
that ends naturally there give the same output, and the function has no other
result. -/
theorem processStream_fault_counterexample :
    processStream (ofRunes (runes "a\n") ++ [.err (.other "read failed")])
      = processStream (ofRunes (runes "a\n")) := by
  decide

end event

namespace scan

/-! ## Prompt detection (C10) -/

theorem bytesContains_iff (b sub : List Byte) : bytesContains b sub = true ↔ sub <:+: b := by
  simp [bytesContains]

/-- One read from a detector in order: it does not panic, appends the bytes
returned to the buffer, keeps the pattern, and leaves the detector in order. -/
theorem read_ok (d : promptDetector) (under : ReadOutcome) (h : DetectorOK d) :
    ∃ (d1 : promptDetector) (ret : ReadReturn), d.Read under = some (d1, ret) ∧
      d1.prompt = d.prompt ∧ d1.readBuf = d.readBuf ++ under.data ∧ DetectorOK d1 := by
  obtain ⟨honce, hfound⟩ := h
  let ret : ReadReturn := ⟨under.data ++ under.scratch, under.data.length, under.err⟩
  by_cases hn : under.data.length > 0
  · by_cases hc : bytesContains (d.readBuf ++ under.data) d.prompt = true
    · have hin := (bytesContains_iff _ _).1 hc
      cases ho : d.once with
      | true =>
        refine ⟨{ d with readBuf := d.readBuf ++ under.data }, ret, ?_, rfl, rfl, ?_⟩
        · simp [promptDetector.Read, hn, hc, ho, ret]
        · refine ⟨honce, ?_⟩
          have hf : d.promptFound = true := by rw [← honce]; exact ho
          simp [hf, hin]
      | false =>
        have hf : d.promptFound = false := by rw [← honce]; exact ho
        refine ⟨{ d with readBuf := d.readBuf ++ under.data, once := true,
                         promptFound := true }, ret, ?_, rfl, rfl, ?_⟩
        · simp [promptDetector.Read, hn, hc, ho, hf, closeChan, ret]
        · exact ⟨rfl, by simp [hin]⟩
    · refine ⟨{ d with readBuf := d.readBuf ++ under.data }, ret, ?_, rfl, rfl, ?_⟩
      · simp [promptDetector.Read, hn, hc, ret]
      · have hnot : ¬ d.prompt <:+: d.readBuf ++ under.data := fun hin =>
          hc ((bytesContains_iff _ _).2 hin)
        refine ⟨honce, ?_⟩
        constructor
        · intro hf
          exact absurd ((hfound.1 hf).trans (List.infix_append' [] d.readBuf under.data)) hnot
        · intro hin
          exact absurd hin hnot
  · have hnil : under.data = [] := by
      cases hd : under.data with
      | nil => rfl
      | cons x xs => simp [hd] at hn
    refine ⟨d, ret, ?_, rfl, by simp [hnil], honce, hfound⟩
    simp [promptDetector.Read, hnil, ret]

/-- Any sequence of reads from a detector in order goes through without a
panic; the buffer then holds the old bytes followed by all bytes returned. -/
theorem readAll_ok (reads : List ReadOutcome) :
    ∀ d : promptDetector, DetectorOK d →
      ∃ d1 : promptDetector, readAll d reads = some d1 ∧ d1.prompt = d.prompt ∧
        d1.readBuf = d.readBuf ++ bytesRead reads ∧ DetectorOK d1 := by
  induction reads with
  | nil => exact fun d h => ⟨d, rfl, rfl, by simp [bytesRead], h⟩
  | cons under rest ih =>
    intro d h
    obtain ⟨d1, ret, hr, hp, hb, hok⟩ := read_ok d under h
    obtain ⟨d2, hr2, hp2, hb2, hok2⟩ := ih d1 hok
    refine ⟨d2, ?_, hp2.trans hp, ?_, hok2⟩
    · simp [readAll, hr, hr2]
    · rw [hb2, hb]
      simp [bytesRead]

theorem detectorOK_new (prompt : List Byte) (h : prompt ≠ []) : DetectorOK (newDetector prompt) := by
  refine ⟨rfl, ?_⟩
  simp [newDetector, h]

/-- C10: with a non-empty pattern, for every sequence of reads and every `k`,
the first `k` reads go through, and after them the channel `promptFound` is
closed if and only if the bytes returned by these reads, concatenated, contain
the pattern as a contiguous run. -/
theorem promptFound_iff_contains (prompt : List Byte) (reads : List ReadOutcome) (k : Nat)
    (h : prompt ≠ []) :
    ∃ d : promptDetector, readAll (newDetector prompt) (reads.take k) = some d ∧
      (d.promptFound = true ↔ prompt <:+: bytesRead (reads.take k)) := by
  obtain ⟨d, hr, hp, hb, hok⟩ := readAll_ok (reads.take k) (newDetector prompt)
    (detectorOK_new prompt h)
  refine ⟨d, hr, ?_⟩
  have hb2 : d.readBuf = bytesRead (reads.take k) := by simpa [newDetector] using hb
  have hp2 : d.prompt = prompt := by simpa [newDetector] using hp
  rw [← hb2, ← hp2]
  exact hok.2

theorem promptFound_iff_contains_witness :
    ∃ d : promptDetector,
      readAll (newDetector (bytes "prompt: "))
          ([⟨bytes "some data before pro", [], none⟩,
            ⟨bytes "mpt: and after", [], none⟩].take 2) = some d ∧
      (d.promptFound = true ↔
        bytes "prompt: " <:+: bytesRead
          ([⟨bytes "some data before pro", [], none⟩,
            ⟨bytes "mpt: and after", [], none⟩].take 2)) :=
  promptFound_iff_contains (bytes "prompt: ")
    [⟨bytes "some data before pro", [], none⟩, ⟨bytes "mpt: and after", [], none⟩] 2
    (by decide)

/-! ## Pass-through (C11) and the one-shot signal (C12) -/

/-- One read from a detector whose channel is closed by `once` only: it does
not panic, hands back what the underlying read gave, and leaves the channel
closed if it was. -/
theorem read_total (d : promptDetector) (under : ReadOutcome) (h : OnceGuards d) :
    ∃ d1 : promptDetector,
      d.Read under = some (d1, ⟨under.data ++ under.scratch, under.data.length, under.err⟩) ∧
      OnceGuards d1 ∧ (d.promptFound = true → d1.promptFound = true) ∧
      (d.promptFound = true → reachesClose d under = false) ∧
      (reachesClose d under = true → d1.promptFound = true) := by
  unfold OnceGuards at h
  by_cases hn : under.data.length > 0
  · by_cases hc : bytesContains (d.readBuf ++ under.data) d.prompt = true
    · cases ho : d.once with
      | true =>
        refine ⟨{ d with readBuf := d.readBuf ++ under.data }, ?_, h, fun hf => hf, ?_, ?_⟩
        · simp [promptDetector.Read, hn, hc, ho]
        · simp [reachesClose, ho]
        · simp [reachesClose, ho]
      | false =>
        have hf : d.promptFound = false := by rw [← h]; exact ho
        refine ⟨{ d with readBuf := d.readBuf ++ under.data, once := true,
                         promptFound := true }, ?_, rfl, fun _ => rfl, ?_, fun _ => rfl⟩
        · simp [promptDetector.Read, hn, hc, ho, hf, closeChan]
        · simp [hf]
    · refine ⟨{ d with readBuf := d.readBuf ++ under.data }, ?_, h, fun hf => hf, ?_, ?_⟩
      · simp [promptDetector.Read, hn, hc]
      · simp [reachesClose, hc]
      · simp [reachesClose, hc]
  · have hnil : under.data = [] := by
      cases hd : under.data with
      | nil => rfl
      | cons x xs => simp [hd] at hn
    refine ⟨d, ?_, h, fun hf => hf, ?_, ?_⟩
    · simp [promptDetector.Read, hnil]
    · simp [reachesClose, hnil]
    · simp [reachesClose, hnil]

/-- Any sequence of reads from such a detector goes through; it reaches `close`
at most once, and not at all if the channel was closed before. -/
theorem readAll_total (reads : List ReadOutcome) :
    ∀ d : promptDetector, OnceGuards d →
      ∃ d1 : promptDetector, readAll d reads = some d1 ∧ OnceGuards d1 ∧
        (d.promptFound = true → d1.promptFound = true) ∧
        (d.promptFound = true → closeCount d reads = 0) ∧
        closeCount d reads ≤ 1 := by
  induction reads with
  | nil => exact fun d h => ⟨d, rfl, h, fun hf => hf, fun _ => rfl, by simp [closeCount]⟩
  | cons under rest ih =>
    intro d h
    obtain ⟨d1, hr, hg, hmono, hno, hcl⟩ := read_total d under h
    obtain ⟨d2, hr2, hg2, hmono2, hno2, hle⟩ := ih d1 hg
    refine ⟨d2, by simp [readAll, hr, hr2], hg2, fun hf => hmono2 (hmono hf), ?_, ?_⟩
    · intro hf
      simp [closeCount, hr, hno hf, hno2 (hmono hf)]
    · cases hrc : reachesClose d under with
      | true => simp [closeCount, hr, hrc, hno2 (hcl hrc)]
      | false => simpa [closeCount, hr, hrc] using hle

theorem readAll_append (reads more : List ReadOutcome) :
    ∀ d d1 : promptDetector, readAll d reads = some d1 →
      readAll d (reads ++ more) = readAll d1 more ∧
      closeCount d (reads ++ more) = closeCount d reads + closeCount d1 more := by
  induction reads with
  | nil =>
    intro d d1 h
    simp only [readAll, Option.some.injEq] at h
    subst h
    simp [closeCount]
  | cons under rest ih =>
    intro d d1 h
    cases hr : d.Read under with
    | none => simp [readAll, hr] at h
    | some pr =>
      obtain ⟨d2, ret⟩ := pr
      simp only [readAll, hr] at h
      obtain ⟨h1, h2⟩ := ih d2 d1 h
      simp [readAll, closeCount, hr, h1, h2, Nat.add_assoc]

/-- C11: after any sequence of reads from a detector as `main` builds it,
whatever the pattern and whether or not it has been found, a call of `Read`
returns the byte count and the error of the underlying read and leaves in the
buffer exactly what the underlying read left there. -/
theorem read_pass_through (prompt : List Byte) (reads : List ReadOutcome) (under : ReadOutcome) :
    ∃ d d1 : promptDetector, readAll (newDetector prompt) reads = some d ∧
      d.Read under
        = some (d1, ⟨under.data ++ under.scratch, under.data.length, under.err⟩) := by
  obtain ⟨d, hr, hg, _⟩ := readAll_total reads (newDetector prompt) rfl
  obtain ⟨d1, hr1, _⟩ := read_total d under hg
  exact ⟨d, d1, hr, hr1⟩

/-- C12: over any sequence of reads from a detector as `main` builds it no read
panics and `close(promptFound)` is reached at most once; once the channel is
closed it stays closed, and the reads that follow never reach `close` again,
whatever bytes they return. -/
theorem promptFound_one_shot (prompt : List Byte) (reads more : List ReadOutcome) :
    ∃ d d1 : promptDetector, readAll (newDetector prompt) reads = some d ∧
      readAll (newDetector prompt) (reads ++ more) = some d1 ∧
      closeCount (newDetector prompt) (reads ++ more) ≤ 1 ∧
      (d.promptFound = true → d1.promptFound = true ∧ closeCount d more = 0) := by
  obtain ⟨d, hr, hg, _⟩ := readAll_total reads (newDetector prompt) rfl
  obtain ⟨d1, hr1, _, hmono, hno, _⟩ := readAll_total more d hg
  obtain ⟨_, _, _, _, _, hle⟩ := readAll_total (reads ++ more) (newDetector prompt) rfl
  refine ⟨d, d1, hr, ?_, hle, fun hf => ⟨hmono hf, hno hf⟩⟩
  rw [(readAll_append reads more _ _ hr).1, hr1]

theorem promptFound_one_shot_witness :
    ∃ d d1 : promptDetector,
      readAll (newDetector (bytes "ab")) [⟨bytes "a", [], none⟩, ⟨bytes "b", [], none⟩] = some d ∧
      readAll (newDetector (bytes "ab"))
        ([⟨bytes "a", [], none⟩, ⟨bytes "b", [], none⟩] ++ [⟨bytes "ab", [], some "EOF"⟩])
          = some d1 ∧
      closeCount (newDetector (bytes "ab"))
        ([⟨bytes "a", [], none⟩, ⟨bytes "b", [], none⟩] ++ [⟨bytes "ab", [], some "EOF"⟩]) ≤ 1 ∧
      (d.promptFound = true →
        d1.promptFound = true ∧ closeCount d [⟨bytes "ab", [], some "EOF"⟩] = 0) :=
  promptFound_one_shot (bytes "ab") [⟨bytes "a", [], none⟩, ⟨bytes "b", [], none⟩]
    [⟨bytes "ab", [], some "EOF"⟩]

end scan

namespace sequence

/-! ## Facts about lists of characters -/

theorem contains_append_left {s sub : String} (t : String) (h : Contains s sub) :
    Contains (s ++ t) sub := by
  unfold Contains at *
  rw [String.data_append]
  exact h.trans (List.infix_append' [] s.data t.data |>.trans (by simp))

theorem contains_append_right {t sub : String} (s : String) (h : Contains t sub) :
    Contains (s ++ t) sub := by
  unfold Contains at *
  rw [String.data_append]
  exact h.trans (List.suffix_append s.data t.data).isInfix

theorem contains_self (s : String) : Contains s s := List.infix_refl _

/-- A list without `c` that starts `A ++ c :: B` starts `A`. -/
theorem prefix_of_prefix_append_cons {α : Type} {c : α} {L : List α} (hc : c ∉ L) :
    ∀ (A B : List α), L <+: A ++ c :: B → L <+: A := by
  induction L with
  | nil => intro A B _; exact List.nil_prefix
  | cons x L1 ih =>
    intro A B h
    cases A with
    | nil =>
      rw [List.nil_append, List.cons_prefix_cons] at h
      exact absurd (h.1 ▸ List.mem_cons_self x L1) hc
    | cons a A1 =>
      rw [List.cons_append, List.cons_prefix_cons] at h
      rw [List.cons_prefix_cons]
      exact ⟨h.1, ih (fun hm => hc (List.mem_cons_of_mem _ hm)) A1 B h.2⟩

/-- A list without `c` found inside `A ++ c :: B` lies inside `A` or inside
`B`. -/
theorem infix_of_infix_append_cons {α : Type} {c : α} {L : List α} (hc : c ∉ L) :
    ∀ (A B : List α), L <:+: A ++ c :: B → L <:+: A ∨ L <:+: B := by
  intro A B
  induction A with
  | nil =>
    intro h
    rw [List.nil_append, List.infix_cons_iff] at h
    rcases h with h | h
    · have := prefix_of_prefix_append_cons hc [] B (by simpa using h)
      exact Or.inl this.isInfix
    · exact Or.inr h
  | cons a A1 ih =>
    intro h
    rw [List.cons_append, List.infix_cons_iff] at h
    rcases h with h | h
    · have := prefix_of_prefix_append_cons hc (a :: A1) B (by simpa using h)
      exact Or.inl this.isInfix
    · rcases ih h with h1 | h1
      · exact Or.inl (List.infix_cons_iff.2 (Or.inr h1))
      · exact Or.inr h1

/-- A list that starts with `x`, found inside `P ++ T` where `P` has no `x`,
lies inside `T`. -/
theorem infix_of_infix_append_no_head {α : Type} {x : α} {L1 : List α} :
    ∀ (P T : List α), x ∉ P → (x :: L1) <:+: P ++ T → (x :: L1) <:+: T := by
  intro P T
  induction P with
  | nil => intro _ h; simpa using h
  | cons p P1 ih =>
    intro hx h
    rw [List.cons_append, List.infix_cons_iff] at h
    rcases h with h | h
    · rw [List.cons_prefix_cons] at h
      exact absurd (h.1 ▸ List.mem_cons_self p P1) hx
    · exact ih (fun hm => hx (List.mem_cons_of_mem _ hm)) h

theorem not_infix_of_head_not_mem {α : Type} {x : α} {L1 A : List α} (hx : x ∉ A) :
    ¬ (x :: L1) <:+: A := fun h => hx (h.subset (List.mem_cons_self x L1))

/-- The characters `Nat.toDigitsCore` adds are decimal digits. -/
theorem toDigitsCore_mem (fuel : Nat) :
    ∀ (n : Nat) (ds : List Char) (c : Char), c ∈ Nat.toDigitsCore 10 fuel n ds →
      c ∈ ds ∨ ∃ d, d < 10 ∧ c = Nat.digitChar d := by
  induction fuel with
  | zero => intro n ds c h; exact Or.inl (by simpa [Nat.toDigitsCore] using h)
  | succ fuel ih =>
    intro n ds c h
    simp only [Nat.toDigitsCore] at h
    split at h
    · rcases List.mem_cons.1 h with e | hm
      · exact Or.inr ⟨n % 10, Nat.mod_lt _ (by decide), e⟩
      · exact Or.inl hm
    · rcases ih _ _ c h with hm | hd
      · rcases List.mem_cons.1 hm with e | hm2
        · exact Or.inr ⟨n % 10, Nat.mod_lt _ (by decide), e⟩
        · exact Or.inl hm2
      · exact Or.inr hd

theorem digitChar_ne_bracket (d : Nat) (hd : d < 10) : Nat.digitChar d ≠ '[' := by
  interval_cases d <;> decide

/-- The decimal text of an integer has no `[`. -/
theorem bracket_not_mem_fmtD (c : Int) : '[' ∉ (fmtD c).data := by
  have hnat : ∀ n : Nat, '[' ∉ (Nat.repr n).data := by
    intro n hm
    simp only [Nat.repr, Nat.toDigits, List.asString] at hm
    rcases toDigitsCore_mem _ _ _ _ hm with h | ⟨d, hd, e⟩
    · simp at h
    · exact digitChar_ne_bracket d hd e.symm
  intro hm
  cases c with
  | ofNat m => exact hnat m hm
  | negSucc m =>
    have e : (fmtD (Int.negSucc m)).data = ['-'] ++ (Nat.repr (m + 1)).data := by
      show ("-" ++ Nat.repr (Nat.succ m)).data = _
      rw [String.data_append]
    rw [e] at hm
    rcases List.mem_append.1 hm with h | h
    · revert h; decide
    · exact hnat _ h

/-! ## The wait result (C13 - C18) -/

theorem handleWaitResult_nil (spawnCtx : Context) :
    handleWaitResult spawnCtx none
      = (0, "\n--- Wait Result ---\n\n[DEMO] Process finished naturally.\nProcess exited successfully with code 0.\n") :=
  rfl

/-- The report for an error that is not and wraps no `ExitError`. -/
theorem handleWaitResult_plain (spawnCtx : Context) (waitErr : GoError)
    (h : errorsAs waitErr = none) :
    handleWaitResult spawnCtx (some waitErr)
      = (1, "\n--- Wait Result ---\n" ++ ("Go error: " ++ waitErr.Error ++ "\n")
              ++ (if spawnCtx.Err ≠ none then interruptedLine else "")) := by
  by_cases hc : spawnCtx.Err = none
  · simp [handleWaitResult, h, hc]
  · simp [handleWaitResult, h, hc]

/-- The report for an error that is or wraps an `ExitError`. -/
theorem handleWaitResult_exit (spawnCtx : Context) (waitErr : GoError) (exitErr : ExitError)
    (h : errorsAs waitErr = some exitErr) :
    handleWaitResult spawnCtx (some waitErr)
      = (1, "\n--- Wait Result ---\n" ++ ("Go error: " ++ waitErr.Error ++ "\n")
              ++ ("Exit code: " ++ fmtD exitErr.ExitCode ++ "\n") ++ checkSignal waitErr
              ++ (if spawnCtx.Err ≠ none then interruptedLine else "")) := by
  by_cases hc : spawnCtx.Err = none
  · simp [handleWaitResult, h, hc]
  · simp [handleWaitResult, h, hc]

/-- The report for a non-nil error is a text that does not depend on the
context, followed by the interruption line when the context reports an error. -/
theorem handleWaitResult_some (spawnCtx : Context) (waitErr : GoError) :
    handleWaitResult spawnCtx (some waitErr)
      = (1, (handleWaitResult ⟨none⟩ (some waitErr)).2
              ++ (if spawnCtx.Err ≠ none then interruptedLine else "")) := by
  cases h : errorsAs waitErr with
  | none => simp [handleWaitResult_plain _ _ h]
  | some e => simp [handleWaitResult_exit _ _ _ h]

/-- C13: the code returned is 0 when `waitErr` is nil and 1 otherwise, so it is
0 if and only if `waitErr` is nil; and for every context the report for a nil
`waitErr` contains "Process finished naturally" and "Process exited
successfully with code 0". -/
theorem handleWaitResult_code (spawnCtx : Context) (waitErr : Option GoError) :
    ((handleWaitResult spawnCtx waitErr).1 = 0 ↔ waitErr = none) ∧
    (handleWaitResult spawnCtx waitErr).1 = (if waitErr.isSome then 1 else 0) ∧
    Contains (handleWaitResult spawnCtx none).2 "Process finished naturally" ∧
    Contains (handleWaitResult spawnCtx none).2 "Process exited successfully with code 0" := by
  refine ⟨?_, ?_, ?_, ?_⟩
  · cases waitErr with
    | none => rw [handleWaitResult_nil]; exact ⟨fun _ => rfl, fun _ => rfl⟩
    | some err => rw [handleWaitResult_some]; simp
  · cases waitErr with
    | none => rw [handleWaitResult_nil]; rfl
    | some err => rw [handleWaitResult_some]; rfl
  · rw [handleWaitResult_nil]
    exact ⟨"\n--- Wait Result ---\n\n[DEMO] ".data,
      ".\nProcess exited successfully with code 0.\n".data, rfl⟩
  · rw [handleWaitResult_nil]
    exact ⟨"\n--- Wait Result ---\n\n[DEMO] Process finished naturally.\n".data, ".\n".data, rfl⟩

/-- C14: when `waitErr` is or wraps an `ExitError` with exit code `c`, the code
returned is 1 and the report contains the line `Exit code: c`, with `c` in
decimal, whatever the integer `c`. -/
theorem handleWaitResult_exit_code (spawnCtx : Context) (waitErr : GoError)
    (exitErr : ExitError) (h : errorsAs waitErr = some exitErr) :
    (handleWaitResult spawnCtx (some waitErr)).1 = 1 ∧
    Contains (handleWaitResult spawnCtx (some waitErr)).2
      ("\nExit code: " ++ fmtD exitErr.ExitCode ++ "\n") := by
  rw [handleWaitResult_exit _ _ _ h]
  refine ⟨rfl, ?_⟩
  apply contains_append_left
  apply contains_append_left
  unfold Contains
  simp only [String.data_append]
  refine ⟨"\n--- Wait Result ---\nGo error: ".data ++ waitErr.Error.data, [], ?_⟩
  simp

theorem handleWaitResult_exit_code_witness :
    (handleWaitResult ⟨none⟩ (some (.wrap "wait: exit status 253"
        (.exit ⟨-3, .other, "exit status 253"⟩)))).1 = 1 ∧
    Contains (handleWaitResult ⟨none⟩ (some (.wrap "wait: exit status 253"
        (.exit ⟨-3, .other, "exit status 253"⟩)))).2 "\nExit code: -3\n" :=
  handleWaitResult_exit_code ⟨none⟩
    (.wrap "wait: exit status 253" (.exit ⟨-3, .other, "exit status 253"⟩))
    ⟨-3, .other, "exit status 253"⟩ rfl

/-- The text written for a signalled child is not empty. -/
theorem signal_line_ne_empty (name : String) :
    "Terminated by signal: " ++ name ++ "\n" ≠ "" := by
  intro h
  have := congrArg String.data h
  simp [String.data_append] at this

/-- Without the interruption line written by line 101, the report contains the
text of that line only if the error text or the signal name brings it. -/
theorem not_contains_interrupted (waitErr : GoError)
    (htext : ¬ Contains waitErr.Error "[DEMO] Process was interrupted.")
    (hsig : ∀ (exitErr : ExitError) (ws : WaitStatus), errorsAs waitErr = some exitErr →
      exitErr.Sys = .waitStatus ws → ¬ Contains ws.Signal "[DEMO] Process was interrupted.") :
    ¬ Contains (handleWaitResult ⟨none⟩ (some waitErr)).2 "[DEMO] Process was interrupted." := by
  unfold Contains at *
  have hnl : '\n' ∉ "[DEMO] Process was interrupted.".data := by decide
  have hL : "[DEMO] Process was interrupted.".data
      = '[' :: "DEMO] Process was interrupted.".data := rfl
  have hhead : '[' ∉ "\n--- Wait Result ---\nGo error: ".data := by decide
  have hnil : ¬ "[DEMO] Process was interrupted.".data <:+: [] := by
    intro h
    have := List.eq_nil_of_infix_nil h
    rw [hL] at this
    cases this
  intro hin
  cases h : errorsAs waitErr with
  | none =>
    have hR : (handleWaitResult ⟨none⟩ (some waitErr)).2.data
        = ("\n--- Wait Result ---\nGo error: ".data ++ waitErr.Error.data) ++ '\n' :: [] := by
      simp only [handleWaitResult, h, String.data_append]
      simp
    rw [hR] at hin
    rcases infix_of_infix_append_cons hnl _ _ hin with h1 | h1
    · rw [hL] at h1
      have := infix_of_infix_append_no_head _ _ hhead h1
      rw [← hL] at this
      exact htext this
    · exact hnil h1
  | some e =>
    have hR : (handleWaitResult ⟨none⟩ (some waitErr)).2.data
        = ("\n--- Wait Result ---\nGo error: ".data ++ waitErr.Error.data)
            ++ '\n' :: (("Exit code: ".data ++ (fmtD e.ExitCode).data)
            ++ '\n' :: (checkSignal waitErr).data) := by
      simp only [handleWaitResult, h, String.data_append]
      simp
    rw [hR] at hin
    rcases infix_of_infix_append_cons hnl _ _ hin with h1 | h1
    · rw [hL] at h1
      have := infix_of_infix_append_no_head _ _ hhead h1
      rw [← hL] at this
      exact htext this
    · rcases infix_of_infix_append_cons hnl _ _ h1 with h2 | h2
      · rw [hL] at h2
        refine not_infix_of_head_not_mem ?_ h2
        intro hm
        rcases List.mem_append.1 hm with h3 | h3
        · revert h3; decide
        · exact bracket_not_mem_fmtD _ h3
      · cases hs : e.Sys with
        | other =>
          have : checkSignal waitErr = "" := by simp [checkSignal, h, hs]
          rw [this] at h2
          exact hnil h2
        | waitStatus ws =>
          cases hsg : ws.Signaled with
          | false =>
            have : checkSignal waitErr = "" := by simp [checkSignal, h, hs, hsg]
            rw [this] at h2
            exact hnil h2
          | true =>
            have hS : (checkSignal waitErr).data
                = ("Terminated by signal: ".data ++ ws.Signal.data) ++ '\n' :: [] := by
              simp [checkSignal, h, hs, hsg, String.data_append]
            rw [hS] at h2
            rcases infix_of_infix_append_cons hnl _ _ h2 with h3 | h3
            · rw [hL] at h3
              have := infix_of_infix_append_no_head _ _ (by decide) h3
              rw [← hL] at this
              exact hsig e ws h hs this
            · exact hnil h3

/-- C15, as the code has it: for a non-nil `waitErr` whose error text and
signal name do not themselves contain the text of the interruption line, the
report contains the line "[DEMO] Process was interrupted." if and only if the
context reports an error, whatever the exit code, the kind of error and the
signal line. -/
theorem handleWaitResult_interrupted (spawnCtx : Context) (waitErr : GoError)
    (htext : ¬ Contains waitErr.Error "[DEMO] Process was interrupted.")
    (hsig : ∀ (exitErr : ExitError) (ws : WaitStatus), errorsAs waitErr = some exitErr →
      exitErr.Sys = .waitStatus ws → ¬ Contains ws.Signal "[DEMO] Process was interrupted.") :
    Contains (handleWaitResult spawnCtx (some waitErr)).2 "[DEMO] Process was interrupted.\n"
      ↔ spawnCtx.Err ≠ none := by
  rw [handleWaitResult_some]
  constructor
  · intro hin hc
    have hbase := not_contains_interrupted waitErr htext hsig
    have hpre : "[DEMO] Process was interrupted.".data
        <:+: "[DEMO] Process was interrupted.\n".data := ⟨[], ['\n'], rfl⟩
    simp only [hc, ne_eq, not_true_eq_false, if_false] at hin
    apply hbase
    unfold Contains at *
    have hin2 : "[DEMO] Process was interrupted.\n".data
        <:+: (handleWaitResult ⟨none⟩ (some waitErr)).2.data := by
      simpa [String.data_append] using hin
    exact hpre.trans hin2
  · intro hc
    simp only [hc, ne_eq, not_false_eq_true, if_true]
    exact contains_append_right _ (contains_self interruptedLine)

theorem handleWaitResult_interrupted_witness :
    Contains (handleWaitResult ⟨some .Canceled⟩ (some (.exit ⟨1, .waitStatus ⟨true, "killed"⟩,
        "signal: killed"⟩))).2 "[DEMO] Process was interrupted.\n"
      ↔ (⟨some .Canceled⟩ : Context).Err ≠ none :=
  handleWaitResult_interrupted ⟨some .Canceled⟩
    (.exit ⟨1, .waitStatus ⟨true, "killed"⟩, "signal: killed"⟩) (by decide)
    (fun exitErr ws h1 h2 => by
      simp only [errorsAs, Option.some.injEq] at h1
      subst h1
      simp only [SysValue.waitStatus.injEq] at h2
      subst h2
      decide)

/-- C15 fails as stated: with a context that reports no error, the report for
an error whose text brings the line contains the interruption line. -/
theorem handleWaitResult_interrupted_counterexample :
    (⟨none⟩ : Context).Err = none ∧
    Contains (handleWaitResult ⟨none⟩
        (some (.plain "boom\n[DEMO] Process was interrupted."))).2
      "\n[DEMO] Process was interrupted.\n" := by
  decide

/-- C16: for a non-nil `waitErr` that is not and wraps no `ExitError`, the code
returned is 1 and the report is the header, then `Go error: ` with the error
text and a newline, then the interruption line when the context reports an
error and nothing otherwise. -/
theorem handleWaitResult_generic_error (spawnCtx : Context) (waitErr : GoError)
    (h : errorsAs waitErr = none) :
    handleWaitResult spawnCtx (some waitErr)
      = (1, "\n--- Wait Result ---\n" ++ ("Go error: " ++ waitErr.Error ++ "\n")
              ++ (if spawnCtx.Err ≠ none then "[DEMO] Process was interrupted.\n" else "")) :=
  handleWaitResult_plain spawnCtx waitErr h

theorem handleWaitResult_generic_error_witness :
    handleWaitResult ⟨none⟩ (some (.plain "something went wrong"))
      = (1, "\n--- Wait Result ---\n" ++ ("Go error: " ++ "something went wrong" ++ "\n")
              ++ (if (⟨none⟩ : Context).Err ≠ none then "[DEMO] Process was interrupted.\n"
                  else "")) :=
  handleWaitResult_generic_error ⟨none⟩ (.plain "something went wrong") rfl

/-- C17: the unix `checkSignal` returns `Terminated by signal: ` with the name
of the signal and a newline when `err` is or wraps an `ExitError` whose `Sys()`
is a `WaitStatus` that is signaled, and the empty string in every other case;
the report of `handleWaitResult` for an `ExitError` holds, between the exit
code line and the interruption line, exactly what `checkSignal` returns. -/
theorem checkSignal_signaled_only (err : GoError) :
    (∀ (exitErr : ExitError) (ws : WaitStatus), errorsAs err = some exitErr →
        exitErr.Sys = .waitStatus ws → ws.Signaled = true →
        checkSignal err = "Terminated by signal: " ++ ws.Signal ++ "\n") ∧
    (checkSignal err ≠ "" ↔
      ∃ (exitErr : ExitError) (ws : WaitStatus), errorsAs err = some exitErr ∧
        exitErr.Sys = .waitStatus ws ∧ ws.Signaled = true) ∧
    (∀ (spawnCtx : Context) (exitErr : ExitError), errorsAs err = some exitErr →
        (handleWaitResult spawnCtx (some err)).2
          = "\n--- Wait Result ---\n" ++ ("Go error: " ++ err.Error ++ "\n")
              ++ ("Exit code: " ++ fmtD exitErr.ExitCode ++ "\n") ++ checkSignal err
              ++ (if spawnCtx.Err ≠ none then "[DEMO] Process was interrupted.\n" else "")) := by
  refine ⟨?_, ?_, ?_⟩
  · intro exitErr ws h hs hsg
    simp [checkSignal, h, hs, hsg]
  · constructor
    · intro hne
      cases h : errorsAs err with
      | none => exact absurd (by simp [checkSignal, h]) hne
      | some e =>
        cases hs : e.Sys with
        | other => exact absurd (by simp [checkSignal, h, hs]) hne
        | waitStatus ws =>
          cases hsg : ws.Signaled with
          | false => exact absurd (by simp [checkSignal, h, hs, hsg]) hne
          | true => exact ⟨e, ws, rfl, hs, hsg⟩
    · rintro ⟨e, ws, h, hs, hsg⟩
      have : checkSignal err = "Terminated by signal: " ++ ws.Signal ++ "\n" := by
        simp [checkSignal, h, hs, hsg]
      rw [this]
      exact signal_line_ne_empty ws.Signal
  · intro spawnCtx exitErr h
    rw [handleWaitResult_exit spawnCtx err exitErr h]
    rfl

theorem checkSignal_signaled_only_witness :
    checkSignal (.wrap "wait" (.exit ⟨-1, .waitStatus ⟨true, "killed"⟩, "signal: killed"⟩))
      = "Terminated by signal: " ++ "killed" ++ "\n" :=
  (checkSignal_signaled_only
      (.wrap "wait" (.exit ⟨-1, .waitStatus ⟨true, "killed"⟩, "signal: killed"⟩))).1
    ⟨-1, .waitStatus ⟨true, "killed"⟩, "signal: killed"⟩ ⟨true, "killed"⟩ rfl rfl rfl

/-- C18: for every `waitErr` and any two contexts whose error states are both
nil or both non-nil, `handleWaitResult` returns the same code and the same
report: it looks at the context through `Err() != nil` alone. -/
theorem handleWaitResult_context_only_nil (waitErr : Option GoError) (c1 c2 : Context)
    (h : c1.Err = none ↔ c2.Err = none) :
    handleWaitResult c1 waitErr = handleWaitResult c2 waitErr := by
  cases waitErr with
  | none => rfl
  | some err =>
    rw [handleWaitResult_some c1, handleWaitResult_some c2]
    by_cases h1 : c1.Err = none
    · have h2 := h.1 h1
      simp [h1, h2]
    · have h2 : ¬ c2.Err = none := fun e => h1 (h.2 e)
      simp [h1, h2]

theorem handleWaitResult_context_only_nil_witness :
    handleWaitResult ⟨some .Canceled⟩ (some (.exit ⟨1, .other, "exit status 1"⟩))
      = handleWaitResult ⟨some .DeadlineExceeded⟩ (some (.exit ⟨1, .other, "exit status 1"⟩)) :=
  handleWaitResult_context_only_nil (some (.exit ⟨1, .other, "exit status 1"⟩))
    ⟨some .Canceled⟩ ⟨some .DeadlineExceeded⟩ (by decide)

/-! ## The command sequence (C19, C20) -/

/-- C19: when the write of the script to the session's input fails with the
error `e`, `runCommandSequence` returns `e` itself and does not call the
session's `Wait`. -/
theorem runCommandSequence_write_fails (goos : String) (s : Session) (e : GoError)
    (h : s.write (full goos ++ "\r\n") = some e) :
    (runCommandSequence goos s).result = some e ∧ (runCommandSequence goos s).waitCalls = 0 := by
  simp [runCommandSequence, h]

theorem runCommandSequence_write_fails_witness :
    (runCommandSequence "linux"
        ⟨[], none, fun _ => some (.plain "write failed"), none⟩).result
        = some (.plain "write failed") ∧
    (runCommandSequence "linux"
        ⟨[], none, fun _ => some (.plain "write failed"), none⟩).waitCalls = 0 :=
  runCommandSequence_write_fails "linux"
    ⟨[], none, fun _ => some (.plain "write failed"), none⟩ (.plain "write failed") rfl

/-- C20: when the write of the script succeeds, `runCommandSequence` calls the
session's `Wait` once and returns its value unchanged, whatever the output
stream delivers and however it ends. -/
theorem runCommandSequence_returns_wait (goos : String) (s : Session) (ptyOut : List Nat)
    (ptyErr : Option String) (h : s.write (full goos ++ "\r\n") = none) :
    (runCommandSequence goos { s with ptyOut := ptyOut, ptyErr := ptyErr }).result = s.wait ∧
    (runCommandSequence goos { s with ptyOut := ptyOut, ptyErr := ptyErr }).waitCalls = 1 := by
  simp [runCommandSequence, h]

theorem runCommandSequence_returns_wait_witness :
    (runCommandSequence "linux"
        { (⟨[], none, fun _ => none, some (.plain "process exited")⟩ : Session) with
          ptyOut := [], ptyErr := some "read failed" }).result
        = some (.plain "process exited") ∧
    (runCommandSequence "linux"
        { (⟨[], none, fun _ => none, some (.plain "process exited")⟩ : Session) with
          ptyOut := [], ptyErr := some "read failed" }).waitCalls = 1 :=
  runCommandSequence_returns_wait "linux"
    ⟨[], none, fun _ => none, some (.plain "process exited")⟩ [] (some "read failed") rfl

end sequence

namespace event

/-! ## Inside a CSI sequence (C28) and control boundaries (C29) -/

theorem isFinal_false_of_outside {x : Rune} (h : x < 0x40 ∨ 0x7E < x) : isFinal x = false := by
  unfold isFinal
  rcases h with h | h
  · have : ¬ (0x40 ≤ x) := Nat.not_le.2 h
    simp [this]
  · have : ¬ (x ≤ 0x7E) := Nat.not_le.2 h
    simp [this]

/-- C28: inside a CSI sequence nothing is interpreted.  `\r`, `\n`, ESC and
every rune above `0x7E` lie outside `0x40..0x7E`; and for an input ESC `[` p f
read after a prefix of whole tokens, with every rune of `p` outside
`0x40..0x7E` and `f` inside, the runes of `p` all go to the payload of the one
ANSI event, which `f` closes, and no other event is written for them. -/
theorem processStream_csi_opaque :
    (isFinal CR = false ∧ isFinal LF = false ∧ isFinal ESC = false ∧
      ∀ x : Rune, 0x7E < x → isFinal x = false) ∧
    ∀ (a p : List Rune) (f : Rune) (rest : List ReadResult), Whole a →
      (∀ x ∈ p, x < 0x40 ∨ 0x7E < x) → 0x40 ≤ f ∧ f ≤ 0x7E →
      processStream (ofRunes (a ++ ESC :: LBRACKET :: (p ++ [f])) ++ rest)
        = processStream (ofRunes a) ++ ⟨EventType.EventANSI, p ++ [f]⟩ :: processStream rest := by
  refine ⟨⟨by decide, by decide, by decide, fun x hx => isFinal_false_of_outside (Or.inr hx)⟩, ?_⟩
  · intro a p f rest ha hp hf
    have hp2 : ∀ x ∈ p, isFinal x = false := fun x hx => isFinal_false_of_outside (hp x hx)
    have hf2 : isFinal f = true := by simp [isFinal, hf.1, hf.2]
    have h := processStream_whole_esc ha (.ok LBRACKET :: (ofRunes p ++ .ok f :: rest))
    have h2 := run_csi_closed p f rest hp2 hf2 []
    simp only [List.nil_append] at h2
    simpa [ofRunes_append, ofRunes_cons, ofRunes_nil, run_esc_bracket, h2, processStream]
      using h

theorem processStream_csi_opaque_witness :
    processStream (ofRunes ([0x41] ++ ESC :: LBRACKET :: ([CR, LF, ESC, 0x80, 0x31] ++ [0x6d]))
        ++ ofRunes [LF])
      = processStream (ofRunes [0x41])
          ++ ⟨EventType.EventANSI, [CR, LF, ESC, 0x80, 0x31] ++ [0x6d]⟩
            :: processStream (ofRunes [LF]) :=
  processStream_csi_opaque.2 [0x41] [CR, LF, ESC, 0x80, 0x31] 0x6d (ofRunes [LF])
    (Whole.plain 0x41 [] (by decide) Whole.nil) (by decide) (by decide)

/-- Across a `\r` or `\n` that ends an ESC-free stretch only the events written
so far are kept: what follows is processed as an input of its own. -/
theorem run_text_control_boundary (a : List Rune) (c : Rune) (rest : List ReadResult)
    (ha : ∀ x ∈ a, x ≠ ESC) (hc : isControl c = true) (tb : List Rune) :
    run (.text tb) (ofRunes (a ++ [c]) ++ rest)
      = run (.text tb) (ofRunes (a ++ [c])) ++ run (.text []) rest := by
  induction a generalizing tb with
  | nil =>
    simp only [List.nil_append, ofRunes_cons, ofRunes_nil, List.cons_append]
    rw [run_text_control _ _ hc, run_text_control _ _ hc]
    simp [run, flush_nil]
  | cons x xs ih =>
    have hx : x ≠ ESC := ha x (List.mem_cons_self _ _)
    have hxs : ∀ y ∈ xs, y ≠ ESC := fun y hy => ha y (List.mem_cons_of_mem _ hy)
    cases hcx : isControl x with
    | true =>
      simp only [List.cons_append, ofRunes_cons, run_text_control _ _ hcx]
      rw [ih hxs []]
      simp
    | false =>
      simp only [List.cons_append, ofRunes_cons, run_text_plain _ _ hx hcx]
      exact ih hxs (tb ++ [x])

theorem headNotText_run_csi (s : List Rune) (acc : List Rune) :
    HeadNotText (run (.csi acc) (ofRunes s)) := by
  induction s generalizing acc with
  | nil => intro e he; simp [ofRunes, run] at he; subst he; simp
  | cons x xs ih =>
    cases hf : isFinal x with
    | true => intro e he; simp [ofRunes_cons, run, hf] at he; subst he; simp
    | false =>
      simp only [ofRunes_cons, run, hf]
      simpa using ih (acc ++ [x])

theorem headNotText_run_esc (s : List Rune) : HeadNotText (run .esc (ofRunes s)) := by
  cases s with
  | nil => intro e he; simp [ofRunes, run] at he
  | cons c rest =>
    by_cases hc : c = LBRACKET
    · subst hc
      rw [ofRunes_cons, run_esc_bracket]
      exact headNotText_run_csi rest []
    · intro e he
      simp [ofRunes_cons, run_esc_other _ hc] at he
      subst he
      simp

theorem chain_flush_append (tb : List Rune) (es : List Event)
    (h1 : List.Chain' NotBothText es) (h2 : HeadNotText es) :
    List.Chain' NotBothText (flush tb ++ es) := by
  cases tb with
  | nil => simpa [flush] using h1
  | cons x xs =>
    simp only [flush, List.length_cons, gt_iff_lt, Nat.zero_lt_succ, if_true,
      List.singleton_append]
    refine List.Chain'.cons' h1 ?_
    intro e he
    exact fun hh => h2 e he hh.2

/-- On an input that ends naturally no two Text events follow each other, from
any read position. -/
theorem chain_run (s : List Rune) :
    ∀ m : Mode, List.Chain' NotBothText (run m (ofRunes s)) := by
  induction s with
  | nil =>
    intro m
    cases m with
    | text tb => simpa [ofRunes, run] using chain_flush_append tb [] List.chain'_nil (by simp [HeadNotText])
    | esc => simp [ofRunes, run]
    | csi acc => simp [ofRunes, run]
  | cons x xs ih =>
    intro m
    cases m with
    | text tb =>
      by_cases hx : x = ESC
      · subst hx
        rw [ofRunes_cons, run_text_esc]
        exact chain_flush_append tb _ (ih .esc) (headNotText_run_esc xs)
      · cases hc : isControl x with
        | true =>
          rw [ofRunes_cons, run_text_control _ _ hc]
          refine chain_flush_append tb _ (List.Chain'.cons' (ih (.text [])) ?_) ?_
          · intro e _ hh
            simp at hh
          · intro e he
            simp at he
            subst he
            simp
        | false =>
          rw [ofRunes_cons, run_text_plain _ _ hx hc]
          exact ih _
    | esc =>
      by_cases hc : x = LBRACKET
      · subst hc
        rw [ofRunes_cons, run_esc_bracket]
        exact ih _
      · rw [ofRunes_cons, run_esc_other _ hc]
        refine List.Chain'.cons' (ih (.text [])) ?_
        intro e _ hh
        simp at hh
    | csi acc =>
      cases hf : isFinal x with
      | true =>
        simp only [ofRunes_cons, run, hf, if_true]
        refine List.Chain'.cons' (ih (.text [])) ?_
        intro e _ hh
        simp at hh
      | false =>
        simp only [ofRunes_cons, run, hf]
        simpa using ih (.csi (acc ++ [x]))

/-- C29: for an ESC-free rune sequence `a` followed by a `\r` or `\n` and any
input after it, the output is the output on `a` with that control character
followed by the output on what comes after; and in the output on any rune
sequence no two Text events follow each other. -/
theorem processStream_control_boundary :
    (∀ (a : List Rune) (c : Rune) (rest : List ReadResult), (∀ x ∈ a, x ≠ ESC) →
      c = CR ∨ c = LF →
      processStream (ofRunes (a ++ [c]) ++ rest)
        = processStream (ofRunes (a ++ [c])) ++ processStream rest) ∧
    ∀ s : List Rune, List.Chain' NotBothText (processStream (ofRunes s)) := by
  constructor
  · intro a c rest ha hc
    exact run_text_control_boundary a c rest ha ((isControl_iff c).2 hc) []
  · intro s
    exact chain_run s (.text [])

theorem processStream_control_boundary_witness :
    processStream (ofRunes (runes "ab" ++ [LF]) ++ ofRunes (runes "cd\x1b[0m"))
      = processStream (ofRunes (runes "ab" ++ [LF]))
          ++ processStream (ofRunes (runes "cd\x1b[0m")) :=
  processStream_control_boundary.1 (runes "ab") LF (ofRunes (runes "cd\x1b[0m"))
    (by decide) (Or.inr rfl)

end event

namespace sequence

/-! ## The payload written (C21) -/

/-- C21: on a session whose input accepts the write, `runCommandSequence`
passes to `Write` exactly one payload, the text of `full` followed by `\r\n`,
and `full` ends with the command `exit 0`, whatever the operating system. -/
theorem runCommandSequence_written (goos : String) (s : Session)
    (h : s.write (full goos ++ "\r\n") = none) :
    (runCommandSequence goos s).written = [full goos ++ "\r\n"] ∧
    "exit 0".data <:+ (full goos).data := by
  refine ⟨by simp [runCommandSequence, h], ?_⟩
  by_cases hg : goos = "windows"
  · simp only [full, hg, if_true]
    exact ⟨"@echo [[PTYX_READY]] & @echo Loading... & ping -n 3 127.0.0.1 >NUL & @echo [[PTYX_DONE]] & ".data, rfl⟩
  · simp only [full, hg, if_false]
    exact ⟨"echo [[PTYX_READY]]; echo Loading...; sleep 2; echo [[PTYX_DONE]]; ".data, rfl⟩

theorem runCommandSequence_written_witness :
    (runCommandSequence "linux" ⟨[], none, fun _ => none, none⟩).written
        = [full "linux" ++ "\r\n"] ∧
    "exit 0".data <:+ (full "linux").data :=
  runCommandSequence_written "linux" ⟨[], none, fun _ => none, none⟩ rfl

end sequence

namespace echo

/-! ## The echo loop (C25) -/

theorem take_indexOf (a : Nat) (l : List Nat) :
    l.take (l.indexOf a) = l.takeWhile (fun b => b != a) := by
  induction l with
  | nil => rfl
  | cons x xs ih =>
    by_cases hx : x = a
    · subst hx
      simp [List.indexOf_cons, List.takeWhile_cons]
    · have hne : (x == a) = false := by simpa using hx
      simp [List.indexOf_cons, List.takeWhile_cons, hne, ih, hx]

theorem takeWhile_append_of_mem {a : Nat} {c : List Nat} (h : a ∈ c) (r : List Nat) :
    (c ++ r).takeWhile (fun b => b != a) = c.takeWhile (fun b => b != a) := by
  induction c with
  | nil => simp at h
  | cons x xs ih =>
    by_cases hx : x = a
    · subst hx
      simp [List.takeWhile_cons]
    · have hm : a ∈ xs := by
        rcases List.mem_cons.1 h with e | hm
        · exact absurd e.symm hx
        · exact hm
      have hne : (x != a) = true := by simpa using hx
      simp [List.takeWhile_cons, hne, ih hm]

theorem takeWhile_append_of_not_mem {a : Nat} {c : List Nat} (h : a ∉ c) (r : List Nat) :
    (c ++ r).takeWhile (fun b => b != a) = c ++ r.takeWhile (fun b => b != a) := by
  induction c with
  | nil => rfl
  | cons x xs ih =>
    have hx : x ≠ a := fun e => h (e ▸ List.mem_cons_self x xs)
    have hne : (x != a) = true := by simpa using hx
    simp [List.takeWhile_cons, hne, ih (fun hm => h (List.mem_cons_of_mem _ hm))]

/-- A read whose bytes hold no byte 3: they are echoed whole when there are
some, and the loop goes on. -/
theorem echoLoop_cons_plain (c : List Nat) (rest : List ReadOutcome) (h : 3 ∉ c) :
    echoLoop (⟨c, none⟩ :: rest)
      = { out := (if c.isEmpty then [] else [wholeLine c]) ++ (echoLoop rest).out,
          errOut := (echoLoop rest).errOut } := by
  cases c with
  | nil => simp [echoLoop]
  | cons x xs => simp [echoLoop, IndexByte, h, wholeLine]

/-- A read whose bytes hold a byte 3: what precedes the first one is echoed
when there is something, and the loop ends. -/
theorem echoLoop_cons_stop (c : List Nat) (rest : List ReadOutcome) (h : 3 ∈ c) :
    echoLoop (⟨c, none⟩ :: rest)
      = { out := if (c.takeWhile (fun b => b != 3)).isEmpty then []
                 else [wholeLine (c.takeWhile (fun b => b != 3))],
          errOut := [] } := by
  have hn : c.length > 0 := List.length_pos_of_mem h
  have hlen : (c.takeWhile (fun b => b != 3)).length = c.indexOf 3 := by
    rw [← take_indexOf, List.length_take]
    exact Nat.min_eq_left List.indexOf_le_length
  have htake := take_indexOf 3 c
  by_cases h0 : c.indexOf 3 = 0
  · have hnil : c.takeWhile (fun b => b != 3) = [] := by
      apply List.eq_nil_of_length_eq_zero
      rw [hlen, h0]
    simp [echoLoop, IndexByte, h, hn, h0, hnil]
  · have hpos : 0 < c.indexOf 3 := Nat.pos_of_ne_zero h0
    have hne : c.takeWhile (fun b => b != 3) ≠ [] := by
      intro e
      rw [e] at hlen
      exact h0 hlen.symm
    have hemp : (c.takeWhile (fun b => b != 3)).isEmpty = false := by
      cases hc : c.takeWhile (fun b => b != 3) with
      | nil => exact absurd hc hne
      | cons _ _ => rfl
    simp only [echoLoop, IndexByte, h, hn, if_true, hemp]
    simp [hpos, htake, wholeLine, hlen]

/-- C25: for every sequence of chunks delivered to `echoLoop` and followed by
`io.EOF`: the output has one line, with its length, per chunk (a read of no
byte writes none) up to the first chunk holding a byte 3; of that chunk only
what precedes the first byte 3 is echoed, with its own length, and not at all
when there is nothing before it, and the loop stops there; the bytes echoed
are the input up to the first byte 3; nothing is written to the error
output. -/
theorem echoLoop_echoes_until_ctrl_c :
    (∀ chunks : List (List Nat), (∀ c ∈ chunks, 3 ∉ c) →
      (echoLoop (ofChunks chunks)).out
        = (chunks.filter (fun c => !c.isEmpty)).map wholeLine) ∧
    (∀ (pre : List (List Nat)) (c : List Nat) (post : List (List Nat)),
      (∀ x ∈ pre, 3 ∉ x) → 3 ∈ c →
      (echoLoop (ofChunks (pre ++ c :: post))).out
        = (pre.filter (fun c => !c.isEmpty)).map wholeLine
            ++ (if (c.takeWhile (fun b => b != 3)).isEmpty then []
                else [wholeLine (c.takeWhile (fun b => b != 3))])) ∧
    (∀ chunks : List (List Nat),
      echoed (echoLoop (ofChunks chunks)) = chunks.flatten.takeWhile (fun b => b != 3)) ∧
    (∀ chunks : List (List Nat), (echoLoop (ofChunks chunks)).errOut = []) := by
  refine ⟨?_, ?_, ?_, ?_⟩
  · intro chunks
    induction chunks with
    | nil => intro _; rfl
    | cons c cs ih =>
      intro h
      have hc : 3 ∉ c := h c (List.mem_cons_self _ _)
      have ih2 := ih (fun x hx => h x (List.mem_cons_of_mem _ hx))
      have e : ofChunks (c :: cs) = ⟨c, none⟩ :: ofChunks cs := rfl
      rw [e, echoLoop_cons_plain c _ hc]
      cases c with
      | nil => simpa using ih2
      | cons x xs => simp [ih2]
  · intro pre
    induction pre with
    | nil =>
      intro c post _ hc
      have e : ofChunks ([] ++ c :: post) = ⟨c, none⟩ :: ofChunks post := rfl
      rw [e, echoLoop_cons_stop c _ hc]
      simp
    | cons p ps ih =>
      intro c post h hc
      have hp : 3 ∉ p := h p (List.mem_cons_self _ _)
      have ih2 := ih c post (fun x hx => h x (List.mem_cons_of_mem _ hx)) hc
      have e : ofChunks ((p :: ps) ++ c :: post) = ⟨p, none⟩ :: ofChunks (ps ++ c :: post) := rfl
      rw [e, echoLoop_cons_plain p _ hp]
      cases p with
      | nil => simpa using ih2
      | cons x xs => simp [ih2]
  · intro chunks
    induction chunks with
    | nil => rfl
    | cons c cs ih =>
      have e : ofChunks (c :: cs) = ⟨c, none⟩ :: ofChunks cs := rfl
      by_cases hc : 3 ∈ c
      · rw [e, echoLoop_cons_stop c _ hc, List.flatten_cons, takeWhile_append_of_mem hc]
        cases ht : c.takeWhile (fun b => b != 3) with
        | nil => simp [echoed]
        | cons x xs => simp [echoed, wholeLine]
      · rw [e, echoLoop_cons_plain c _ hc, List.flatten_cons, takeWhile_append_of_not_mem hc,
          ← ih]
        cases c with
        | nil => simp [echoed]
        | cons x xs => simp [echoed, wholeLine]
  · intro chunks
    induction chunks with
    | nil => rfl
    | cons c cs ih =>
      have e : ofChunks (c :: cs) = ⟨c, none⟩ :: ofChunks cs := rfl
      by_cases hc : 3 ∈ c
      · rw [e, echoLoop_cons_stop c _ hc]
      · rw [e, echoLoop_cons_plain c _ hc]
        exact ih

theorem echoLoop_echoes_until_ctrl_c_witness :
    (echoLoop (ofChunks ([[104, 105]] ++ [97, 98, 99, 3, 100, 101, 102] :: [[103]]))).out
      = ([[104, 105]].filter (fun c => !c.isEmpty)).map wholeLine
          ++ (if ([97, 98, 99, 3, 100, 101, 102].takeWhile (fun b => b != 3)).isEmpty then []
              else [wholeLine ([97, 98, 99, 3, 100, 101, 102].takeWhile (fun b => b != 3))]) :=
  echoLoop_echoes_until_ctrl_c.2.1 [[104, 105]] [97, 98, 99, 3, 100, 101, 102] [[103]]
    (by decide) (by decide)

end echo

namespace sequence

/-! ## The line reader (C22 - C24) -/

theorem splitOn_eq (out : List Nat) : out.splitOn LF = List.splitOnP (fun b => b == LF) out := rfl

/-- A byte sequence either holds no `\n`, or splits at its first one. -/
theorem split_at_first_LF (q : List Nat) :
    (∀ x ∈ q, x ≠ LF) ∨
    ∃ (p rest : List Nat), q = p ++ LF :: rest ∧ ∀ x ∈ p, x ≠ LF := by
  induction q with
  | nil => left; simp
  | cons x xs ih =>
    by_cases hx : x = LF
    · exact Or.inr ⟨[], xs, by simp [hx], by simp⟩
    · rcases ih with h | ⟨p, rest, he, hp⟩
      · left
        intro y hy
        rcases List.mem_cons.1 hy with e | hm
        · exact e ▸ hx
        · exact h y hm
      · right
        refine ⟨x :: p, rest, by simp [he], ?_⟩
        intro y hy
        rcases List.mem_cons.1 hy with e | hm
        · exact e ▸ hx
        · exact hp y hm

theorem splitOn_no_LF {l : List Nat} (h : ∀ x ∈ l, x ≠ LF) : l.splitOn LF = [l] := by
  rw [splitOn_eq]
  exact List.splitOnP_eq_single _ _ (fun x hx => by simpa using h x hx)

theorem splitOn_first {l : List Nat} (h : ∀ x ∈ l, x ≠ LF) (rest : List Nat) :
    (l ++ LF :: rest).splitOn LF = l :: rest.splitOn LF := by
  rw [splitOn_eq, splitOn_eq]
  exact List.splitOnP_first _ _ (fun x hx => by simpa using h x hx) LF (by simp) rest

theorem outputLines_no_LF {l : List Nat} (h : ∀ x ∈ l, x ≠ LF) :
    outputLines l = if l = [] then [] else [l] := by
  unfold outputLines
  rw [splitOn_no_LF h]
  by_cases hl : l = []
  · simp [hl]
  · simp [hl]

theorem outputLines_first {l : List Nat} (h : ∀ x ∈ l, x ≠ LF) (rest : List Nat) :
    outputLines (l ++ LF :: rest) = l :: outputLines rest := by
  unfold outputLines
  rw [splitOn_first h]
  have hne : rest.splitOn LF ≠ [] := by
    rw [splitOn_eq]
    exact List.splitOnP_ne_nil _ _
  cases hs : rest.splitOn LF with
  | nil => exact absurd hs hne
  | cons y ys =>
    rw [List.getLast?_cons_cons]
    by_cases hl : (y :: ys).getLast? = some []
    · simp only [hl, if_true]
      exact List.dropLast_cons_of_ne_nil (by simp)
    · simp only [hl, if_false]

/-- The part of the pending line already read is no longer than the first
piece of what is split. -/
theorem first_piece_length (cur rest : List Nat) (hcur : ∀ x ∈ cur, x ≠ LF) :
    ∃ l ∈ (cur ++ rest).splitOn LF, cur.length ≤ l.length := by
  rcases split_at_first_LF rest with h | ⟨p, r, he, hp⟩
  · refine ⟨cur ++ rest, ?_, by simp⟩
    rw [splitOn_no_LF]
    · simp
    · intro x hx
      rcases List.mem_append.1 hx with h1 | h1
      · exact hcur x h1
      · exact h x h1
  · refine ⟨cur ++ p, ?_, by simp⟩
    have hcp : ∀ x ∈ cur ++ p, x ≠ LF := by
      intro x hx
      rcases List.mem_append.1 hx with h1 | h1
      · exact hcur x h1
      · exact hp x h1
    rw [he, ← List.append_assoc, splitOn_first hcp]
    simp

/-- When every line of the output fits the buffer, the scanner returns the
lines of the output, one trailing `\r` dropped from each, and does not fail. -/
theorem scanFrom_lines (cap : Nat) (rest : List Nat) :
    ∀ cur : List Nat, (∀ x ∈ cur, x ≠ LF) →
      (∀ l ∈ (cur ++ rest).splitOn LF, l.length < cap) →
      scanFrom cap cur rest = ((outputLines (cur ++ rest)).map dropCR, false) := by
  induction rest with
  | nil =>
    intro cur hcur hlen
    have hc : cur.length < cap := by
      apply hlen
      rw [List.append_nil, splitOn_no_LF hcur]
      simp
    rw [List.append_nil, outputLines_no_LF hcur]
    by_cases hnil : cur = []
    · subst hnil
      simp only [scanFrom, List.length_nil, ge_iff_le, if_true]
      have : ¬ cap ≤ 0 := Nat.not_le.2 hc
      simp [this]
    · have : ¬ cap ≤ cur.length := Nat.not_le.2 hc
      simp [scanFrom, this, hnil]
  | cons b r ih =>
    intro cur hcur hlen
    obtain ⟨l, hl, hle⟩ := first_piece_length cur (b :: r) hcur
    have hc : ¬ cap ≤ cur.length := Nat.not_le.2 (Nat.lt_of_le_of_lt hle (hlen l hl))
    by_cases hb : b = LF
    · subst hb
      have hr : ∀ l ∈ ([] ++ r).splitOn LF, l.length < cap := by
        intro l hl
        apply hlen
        rw [splitOn_first hcur]
        exact List.mem_cons_of_mem _ (by simpa using hl)
      have := ih [] (by simp) hr
      simp only [List.nil_append] at this
      simp [scanFrom, hc, this, outputLines_first hcur]
    · have hcur2 : ∀ x ∈ cur ++ [b], x ≠ LF := by
        intro x hx
        rcases List.mem_append.1 hx with h1 | h1
        · exact hcur x h1
        · rw [List.mem_singleton.1 h1]; exact hb
      have hlen2 : ∀ l ∈ ((cur ++ [b]) ++ r).splitOn LF, l.length < cap := by
        simpa using hlen
      have := ih (cur ++ [b]) hcur2 hlen2
      simp only [List.append_assoc, List.singleton_append] at this
      simp [scanFrom, hc, hb, this]

/-- A pending line that fills the buffer before its `\n` comes: `ErrTooLong`,
no further token. -/
theorem scanFrom_too_long (cap : Nat) (big : List Nat) (hbig : ∀ x ∈ big, x ≠ LF) :
    ∀ (cur rest : List Nat), cap ≤ cur.length + big.length →
      scanFrom cap cur (big ++ rest) = ([], true) := by
  induction big with
  | nil =>
    intro cur rest h
    have hc : cap ≤ cur.length := by simpa using h
    cases rest with
    | nil => simp [scanFrom, hc]
    | cons b r => simp [scanFrom, hc]
  | cons x xs ih =>
    intro cur rest h
    have hx : x ≠ LF := hbig x (List.mem_cons_self _ _)
    by_cases hc : cap ≤ cur.length
    · simp [scanFrom, hc]
    · have := ih (fun y hy => hbig y (List.mem_cons_of_mem _ hy)) (cur ++ [x]) rest
        (by simp only [List.length_append, List.length_cons, List.length_nil] at *; omega)
      simp [scanFrom, hc, hx, this]

/-- A line that fits the buffer with its `\n` is returned, and scanning goes on
after it with an empty pending line. -/
theorem scanFrom_short_line (cap : Nat) (line : List Nat) (hline : ∀ x ∈ line, x ≠ LF) :
    ∀ (cur rest : List Nat), cur.length + line.length < cap →
      scanFrom cap cur (line ++ LF :: rest)
        = (dropCR (cur ++ line) :: (scanFrom cap [] rest).1, (scanFrom cap [] rest).2) := by
  induction line with
  | nil =>
    intro cur rest h
    have hc : ¬ cap ≤ cur.length := by
      simp only [List.length_nil, Nat.add_zero] at h
      exact Nat.not_le.2 h
    simp [scanFrom, hc]
  | cons x xs ih =>
    intro cur rest h
    have hx : x ≠ LF := hline x (List.mem_cons_self _ _)
    have hc : ¬ cap ≤ cur.length := by
      simp only [List.length_cons] at h
      omega
    have := ih (fun y hy => hline y (List.mem_cons_of_mem _ hy)) (cur ++ [x]) rest
      (by simp only [List.length_append, List.length_cons, List.length_nil] at *; omega)
    simp only [List.append_assoc, List.singleton_append] at this
    simp [scanFrom, hc, hx, this]

theorem trimRight_dropCR (l : List Nat) :
    TrimRight (dropCR l) [CR] = l.rdropWhile (fun b => b == CR) := by
  have hf : (fun b : Nat => [CR].contains b) = (fun b => b == CR) := by
    funext b
    by_cases hb : b = CR
    · simp [hb]
    · simp [hb]
  unfold TrimRight
  rw [hf]
  rcases List.eq_nil_or_concat l with h | ⟨l1, x, h⟩
  · subst h
    simp [dropCR]
  · subst h
    by_cases hx : x = CR
    · subst hx
      simp [dropCR, List.rdropWhile_concat]
    · simp [dropCR, hx]

theorem mem_replicate_ne_LF (n : Nat) : ∀ x ∈ List.replicate n 97, x ≠ LF := by
  intro x hx
  rw [List.eq_of_mem_replicate hx]
  decide

/-- C22, as the code has it: for every session output whose lines are all
shorter than `1<<20` bytes, the lines forwarded to the sink are, in order and
once each, the lines of the output split on `\n` with all trailing `\r`
stripped, the scanner does not fail, and the sink receives each of them
followed by a newline. -/
theorem lineReader_forwards_lines (out : List Nat)
    (h : ∀ l ∈ out.splitOn LF, l.length < maxTokenSize) :
    (lineReader out).lines
        = (outputLines out).map (fun l => l.rdropWhile (fun b => b == CR)) ∧
    (lineReader out).tooLong = false ∧
    sinkBytes (lineReader out).lines
        = ((outputLines out).map (fun l => l.rdropWhile (fun b => b == CR) ++ [LF])).flatten := by
  have hs := scanFrom_lines maxTokenSize out [] (by simp) (by simpa using h)
  simp only [List.nil_append] at hs
  have hl : (lineReader out).lines
      = (outputLines out).map (fun l => l.rdropWhile (fun b => b == CR)) := by
    simp only [lineReader, hs, List.map_map]
    apply List.map_congr_left
    intro l _
    exact trimRight_dropCR l
  refine ⟨hl, by simp [lineReader, hs], ?_⟩
  rw [hl]
  simp [sinkBytes, List.map_map, Function.comp_def]

theorem lineReader_forwards_lines_witness :
    (lineReader ("[[PTYX_READY]]\nLoading...\n[[PTYX_DONE]]\n".toList.map Char.toNat)).lines
        = (outputLines ("[[PTYX_READY]]\nLoading...\n[[PTYX_DONE]]\n".toList.map Char.toNat)).map
            (fun l => l.rdropWhile (fun b => b == CR)) ∧
    (lineReader ("[[PTYX_READY]]\nLoading...\n[[PTYX_DONE]]\n".toList.map Char.toNat)).tooLong
        = false ∧
    sinkBytes
        (lineReader ("[[PTYX_READY]]\nLoading...\n[[PTYX_DONE]]\n".toList.map Char.toNat)).lines
        = ((outputLines ("[[PTYX_READY]]\nLoading...\n[[PTYX_DONE]]\n".toList.map Char.toNat)).map
            (fun l => l.rdropWhile (fun b => b == CR) ++ [LF])).flatten :=
  lineReader_forwards_lines ("[[PTYX_READY]]\nLoading...\n[[PTYX_DONE]]\n".toList.map Char.toNat)
    (by decide)

/-- C22 fails as stated: on the output `first`, newline, a line of `1<<20`
bytes, newline, `last`, newline, only `first` is forwarded, although `last` is
a line of the output. -/
theorem lineReader_forwards_lines_counterexample :
    (lineReader ([102, 105, 114, 115, 116] ++ LF ::
        (List.replicate 1048576 97 ++ LF :: [108, 97, 115, 116, LF]))).lines
      = [[102, 105, 114, 115, 116]] ∧
    outputLines ([102, 105, 114, 115, 116] ++ LF ::
        (List.replicate 1048576 97 ++ LF :: [108, 97, 115, 116, LF]))
      = [[102, 105, 114, 115, 116], List.replicate 1048576 97, [108, 97, 115, 116]] := by
  constructor
  · have h1 := scanFrom_short_line maxTokenSize [102, 105, 114, 115, 116] (by decide) []
      (List.replicate 1048576 97 ++ LF :: [108, 97, 115, 116, LF]) (by decide)
    have h2 := scanFrom_too_long maxTokenSize (List.replicate 1048576 97)
      (mem_replicate_ne_LF _) [] (LF :: [108, 97, 115, 116, LF])
      (by rw [List.length_replicate]; decide)
    simp only [lineReader, h1, h2, List.nil_append, List.map_cons, List.map_nil]
    rw [trimRight_dropCR]
    decide
  · have h3 : outputLines [108, 97, 115, 116, LF] = [[108, 97, 115, 116]] := by decide
    rw [outputLines_first (by decide), outputLines_first (mem_replicate_ne_LF _), h3]

theorem markDone_spec (lines : List (List Nat)) :
    ∀ pending : Nat, pending ≤ 1 →
      markDone pending lines ≤ 1 ∧
      (markDone pending lines = 1 ↔ pending = 1 ∨ ∃ l ∈ lines, TrimSpace l = done) := by
  induction lines with
  | nil =>
    intro pending h
    simp [markDone, h]
  | cons line rest ih =>
    intro pending h
    by_cases hd : TrimSpace line = done
    · have hs : trySend pending = 1 := by
        unfold trySend
        split <;> omega
      obtain ⟨h1, h2⟩ := ih (trySend pending) (by omega)
      simp only [markDone, hd, if_true]
      refine ⟨h1, ?_⟩
      rw [h2]
      constructor
      · intro _
        exact Or.inr ⟨line, List.mem_cons_self _ _, hd⟩
      · intro _
        exact Or.inl hs
    · obtain ⟨h1, h2⟩ := ih pending h
      simp only [markDone, hd, if_false]
      refine ⟨h1, ?_⟩
      rw [h2]
      constructor
      · rintro (hp | ⟨l, hl, hl2⟩)
        · exact Or.inl hp
        · exact Or.inr ⟨l, List.mem_cons_of_mem _ hl, hl2⟩
      · rintro (hp | ⟨l, hl, hl2⟩)
        · exact Or.inl hp
        · rcases List.mem_cons.1 hl with e | hm
          · exact absurd (e ▸ hl2) hd
          · exact Or.inr ⟨l, hm, hl2⟩

/-- C24, as the code has it: a single output line of up to `(1<<20) - 1` bytes
(its `\n` not counted) is forwarded whole, its trailing `\r` stripped, reading
does not fail on it, and what follows it is read as an output of its own. -/
theorem lineReader_long_line (line after : List Nat) (hline : ∀ x ∈ line, x ≠ LF)
    (hlen : line.length < maxTokenSize) :
    (lineReader (line ++ LF :: after)).lines
        = line.rdropWhile (fun b => b == CR) :: (lineReader after).lines ∧
    (lineReader (line ++ LF :: after)).tooLong = (lineReader after).tooLong := by
  have h := scanFrom_short_line maxTokenSize line hline [] after (by simpa using hlen)
  simp only [List.nil_append] at h
  constructor
  · simp only [lineReader, h, List.map_cons]
    rw [trimRight_dropCR]
  · simp [lineReader, h]

theorem lineReader_long_line_witness :
    (lineReader (List.replicate 1048575 97 ++ LF :: [111, 107, LF])).lines
        = (List.replicate 1048575 97).rdropWhile (fun b => b == CR)
            :: (lineReader [111, 107, LF]).lines ∧
    (lineReader (List.replicate 1048575 97 ++ LF :: [111, 107, LF])).tooLong
        = (lineReader [111, 107, LF]).tooLong :=
  lineReader_long_line (List.replicate 1048575 97) [111, 107, LF] (mem_replicate_ne_LF _)
    (by rw [List.length_replicate]; decide)

/-- C24 fails as stated: on a line of `1<<20` bytes followed by a newline and
the line `ok`, the scanner stops with `ErrTooLong`; neither the long line nor
`ok` is forwarded. -/
theorem lineReader_long_line_counterexample :
    lineReader (List.replicate 1048576 97 ++ LF :: [111, 107, LF])
      = { lines := [], cmdDone := 0, tooLong := true } := by
  have h := scanFrom_too_long maxTokenSize (List.replicate 1048576 97)
    (mem_replicate_ne_LF _) [] (LF :: [111, 107, LF])
    (by rw [List.length_replicate]; decide)
  simp only [lineReader, h]
  rfl

end sequence

namespace run

/-! ## Parsing the options (C26, C27) -/

theorem classify_positional {prog : String} (h : prog.data.head? ≠ some '-') :
    flag.classify prog = flag.Arg.positional := by
  unfold flag.classify
  cases hd : prog.data with
  | nil => rfl
  | cons c0 t =>
    cases t with
    | nil => rfl
    | cons c1 cs =>
      have : c0 ≠ '-' := by
        intro e
        apply h
        rw [hd, e]
        rfl
      simp [this]

theorem classify_name (o : FlagOpt) :
    ∀ a ∈ o.argv.head?, flag.classify a = flag.Arg.flag o.name none := by
  cases o <;> intro a ha <;> simp [FlagOpt.argv] at ha <;> subst ha <;>
    simp only [FlagOpt.name] <;> decide

theorem getLast?_cons_getD {α : Type} (x : α) (l : List α) (d : α) :
    (x :: l).getLast?.getD d = l.getLast?.getD x := by
  cases l with
  | nil => rfl
  | cons y ys =>
    have h : (y :: ys).getLast? = some ((y :: ys).getLast (by simp)) :=
      List.getLast?_eq_getLast _ _
    rw [List.getLast?_cons_cons, h]
    rfl

/-- What a well-formed option does to the variables, for a flag set that
defines its flag as `ParseRunOpts` does. -/
theorem parse_option (ParseInt : String → Option Int) (formal : flag.Formal) (o : FlagOpt)
    (hf : formal o.name = runFormal ParseInt o.name) (hw : o.WellFormed ParseInt)
    (st : flag.Vars) (tail : List String) :
    flag.parse formal st (o.argv ++ tail)
      = flag.parse formal (applyOpts ParseInt st [o]) tail := by
  cases o with
  | cols n =>
    have hc : flag.classify "-cols" = flag.Arg.flag "cols" none := by decide
    simp only [FlagOpt.name] at hf
    cases hp : ParseInt n with
    | none => exact absurd hp hw
    | some v =>
      simp [FlagOpt.argv, flag.parse, hc, hf, runFormal, hp, applyOpts, colsValues, rowsValues,
        dirValues, envValues]
  | rows n =>
    have hc : flag.classify "-rows" = flag.Arg.flag "rows" none := by decide
    simp only [FlagOpt.name] at hf
    cases hp : ParseInt n with
    | none => exact absurd hp hw
    | some v =>
      simp [FlagOpt.argv, flag.parse, hc, hf, runFormal, hp, applyOpts, colsValues, rowsValues,
        dirValues, envValues]
  | dir d =>
    have hc : flag.classify "-dir" = flag.Arg.flag "dir" none := by decide
    simp only [FlagOpt.name] at hf
    simp [FlagOpt.argv, flag.parse, hc, hf, runFormal, applyOpts, colsValues, rowsValues,
      dirValues, envValues]
  | env kv =>
    have hc : flag.classify "-env" = flag.Arg.flag "env" none := by decide
    simp only [FlagOpt.name] at hf
    simp [FlagOpt.argv, flag.parse, hc, hf, runFormal, applyOpts, colsValues, rowsValues,
      dirValues, envValues, multiStringSet]

theorem applyOpts_cons (ParseInt : String → Option Int) (o : FlagOpt) (os : List FlagOpt)
    (hw : o.WellFormed ParseInt) (st : flag.Vars) :
    applyOpts ParseInt (applyOpts ParseInt st [o]) os = applyOpts ParseInt st (o :: os) := by
  cases o with
  | cols n =>
    cases hp : ParseInt n with
    | none => exact absurd hp hw
    | some v =>
      simp [applyOpts, colsValues, rowsValues, dirValues, envValues, hp, getLast?_cons_getD]
  | rows n =>
    cases hp : ParseInt n with
    | none => exact absurd hp hw
    | some v =>
      simp [applyOpts, colsValues, rowsValues, dirValues, envValues, hp, getLast?_cons_getD]
  | dir d =>
    simp [applyOpts, colsValues, rowsValues, dirValues, envValues, getLast?_cons_getD]
  | env kv =>
    by_cases he : envValues os = []
    · simp [applyOpts, colsValues, rowsValues, dirValues, envValues] at he ⊢
    · simp [applyOpts, colsValues, rowsValues, dirValues, envValues] at he ⊢

theorem applyOpts_nil (ParseInt : String → Option Int) (st : flag.Vars) :
    applyOpts ParseInt st [] = st := by
  simp [applyOpts, colsValues, rowsValues, dirValues, envValues]

/-- A well-formed sequence of options is read whole, and parsing goes on with
what follows it. -/
theorem parse_flagArgs (ParseInt : String → Option Int) (formal : flag.Formal)
    (opts : List FlagOpt) :
    (∀ o ∈ opts, formal o.name = runFormal ParseInt o.name) →
    (∀ o ∈ opts, o.WellFormed ParseInt) →
    ∀ (st : flag.Vars) (tail : List String),
      flag.parse formal st (flagArgs opts ++ tail)
        = flag.parse formal (applyOpts ParseInt st opts) tail := by
  induction opts with
  | nil =>
    intro _ _ st tail
    simp [flagArgs, applyOpts_nil]
  | cons o os ih =>
    intro hf hw st tail
    have ho := hw o (List.mem_cons_self _ _)
    have e : flagArgs (o :: os) ++ tail = o.argv ++ (flagArgs os ++ tail) := by
      simp [flagArgs]
    rw [e, parse_option ParseInt formal o (hf o (List.mem_cons_self _ _)) ho,
      ih (fun x hx => hf x (List.mem_cons_of_mem _ hx))
        (fun x hx => hw x (List.mem_cons_of_mem _ hx)),
      applyOpts_cons ParseInt o os ho]

theorem resizeFormal_of_sizeOnly (ParseInt : String → Option Int) {opts : List FlagOpt}
    (h : SizeOnly opts) :
    ∀ o ∈ opts, resizeFormal ParseInt o.name = runFormal ParseInt o.name := by
  intro o ho
  rcases h o ho with e | e <;> simp [resizeFormal, runFormal, e]

/-- C26: for every argument list made of a well-formed sequence of `-cols N`,
`-rows N`, `-dir D` and `-env KV` options, a program that does not start with
`-`, and the rest, `ParseRunOpts` succeeds with `Prog` the program, `Args` the
rest as it stands, as a non-nil slice, `Cols`, `Rows` and `Dir` the last value
given to their flag (0, 0 and the empty string when there is none), and `Env`
the values of `-env` in order (nil when there is none). -/
theorem ParseRunOpts_flags_then_program (ParseInt : String → Option Int)
    (opts : List FlagOpt) (prog : String) (rest : List String)
    (hw : ∀ o ∈ opts, o.WellFormed ParseInt) (hprog : prog.data.head? ≠ some '-') :
    ParseRunOpts ParseInt (flagArgs opts ++ prog :: rest)
      = ({ Prog := prog, Args := some rest,
           Cols := (colsValues ParseInt opts).getLast?.getD 0,
           Rows := (rowsValues ParseInt opts).getLast?.getD 0,
           Dir := (dirValues opts).getLast?.getD "",
           Env := if envValues opts = [] then none else some (envValues opts) }, none) := by
  unfold ParseRunOpts
  rw [parse_flagArgs ParseInt (runFormal ParseInt) opts (fun _ _ => rfl) hw]
  simp only [flag.parse, classify_positional hprog]
  by_cases he : envValues opts = []
  · simp [applyOpts, initVars, he]
  · simp [applyOpts, initVars, he]

theorem ParseRunOpts_flags_then_program_witness :
    ParseRunOpts parseDecimal
        (flagArgs [.cols "120", .rows "40", .dir "/home/user", .env "TERM=xterm-256color"]
          ++ "vim" :: ["file.txt", "-cols"])
      = ({ Prog := "vim", Args := some ["file.txt", "-cols"],
           Cols := (colsValues parseDecimal
             [.cols "120", .rows "40", .dir "/home/user", .env "TERM=xterm-256color"]).getLast?.getD 0,
           Rows := (rowsValues parseDecimal
             [.cols "120", .rows "40", .dir "/home/user", .env "TERM=xterm-256color"]).getLast?.getD 0,
           Dir := (dirValues
             [.cols "120", .rows "40", .dir "/home/user", .env "TERM=xterm-256color"]).getLast?.getD "",
           Env := if envValues
               [.cols "120", .rows "40", .dir "/home/user", .env "TERM=xterm-256color"] = []
             then none
             else some (envValues
               [.cols "120", .rows "40", .dir "/home/user", .env "TERM=xterm-256color"]) }, none) :=
  ParseRunOpts_flags_then_program parseDecimal
    [.cols "120", .rows "40", .dir "/home/user", .env "TERM=xterm-256color"] "vim"
    ["file.txt", "-cols"]
    (by
      intro o ho
      simp only [List.mem_cons, List.mem_singleton, List.not_mem_nil, or_false] at ho
      rcases ho with rfl | rfl | rfl | rfl
      · show parseDecimal "120" ≠ none
        decide
      · show parseDecimal "40" ≠ none
        decide
      · trivial
      · trivial)
    (by decide)

/-- An unknown or malformed flag makes `Parse` fail, whatever the variables. -/
theorem parse_rejected (formal : flag.Formal) (s : String) (rest : List String)
    (h : Rejected formal s rest) (st : flag.Vars) :
    ∃ e, flag.parse formal st (s :: rest) = .error e := by
  rcases h with h | ⟨name, value, h, hf⟩ | ⟨name, h, hr⟩ | ⟨name, v, set, h, hf, hs⟩ |
    ⟨name, v, rest1, set, h, hr, hf, hs⟩
  · exact ⟨.badSyntax s, by simp [flag.parse, h]⟩
  · by_cases hh : name = "help" ∨ name = "h"
    · exact ⟨.help, by simp [flag.parse, h, hf, hh]⟩
    · exact ⟨.notDefined name, by simp [flag.parse, h, hf, hh]⟩
  · subst hr
    cases hf : formal name with
    | none =>
      by_cases hh : name = "help" ∨ name = "h"
      · exact ⟨.help, by simp [flag.parse, h, hf, hh]⟩
      · exact ⟨.notDefined name, by simp [flag.parse, h, hf, hh]⟩
    | some set => exact ⟨.needsArgument name, by simp [flag.parse, h, hf]⟩
  · exact ⟨.invalidValue v name, by simp [flag.parse, h, hf, hs]⟩
  · subst hr
    exact ⟨.invalidValue v name, by simp [flag.parse, h, hf, hs]⟩

/-- C27: `ParseRunOpts` and `ParseResizeOpts` fail as a whole.  Whenever they
return an error the options returned are the zero value; a well-formed
sequence of flags with no program after it (the empty list included) gives the
error `no program specified`; and an unknown or malformed flag met after
well-formed flags gives an error of the flag package. -/
theorem parse_opts_fail_whole (ParseInt : String → Option Int) :
    (∀ argv, (ParseRunOpts ParseInt argv).2 ≠ none →
      (ParseRunOpts ParseInt argv).1 = SpawnOpts.zero) ∧
    (∀ argv, (ParseResizeOpts ParseInt argv).2 ≠ none →
      (ParseResizeOpts ParseInt argv).1 = SpawnOpts.zero) ∧
    (∀ opts : List FlagOpt, (∀ o ∈ opts, o.WellFormed ParseInt) →
      ParseRunOpts ParseInt (flagArgs opts) = (SpawnOpts.zero, some .noProgram)) ∧
    (∀ opts : List FlagOpt, SizeOnly opts → (∀ o ∈ opts, o.WellFormed ParseInt) →
      ParseResizeOpts ParseInt (flagArgs opts) = (SpawnOpts.zero, some .noProgram)) ∧
    (∀ (opts : List FlagOpt) (s : String) (rest : List String),
      (∀ o ∈ opts, o.WellFormed ParseInt) → Rejected (runFormal ParseInt) s rest →
      ∃ e, ParseRunOpts ParseInt (flagArgs opts ++ s :: rest)
        = (SpawnOpts.zero, some (.flag e))) ∧
    (∀ (opts : List FlagOpt) (s : String) (rest : List String), SizeOnly opts →
      (∀ o ∈ opts, o.WellFormed ParseInt) → Rejected (resizeFormal ParseInt) s rest →
      ∃ e, ParseResizeOpts ParseInt (flagArgs opts ++ s :: rest)
        = (SpawnOpts.zero, some (.flag e))) := by
  refine ⟨?_, ?_, ?_, ?_, ?_, ?_⟩
  · intro argv h
    unfold ParseRunOpts at h ⊢
    cases hp : flag.parse (runFormal ParseInt) initVars argv with
    | error e => rfl
    | ok r =>
      obtain ⟨st, args⟩ := r
      cases args with
      | nil => rfl
      | cons prog rest => simp [hp] at h
  · intro argv h
    unfold ParseResizeOpts at h ⊢
    cases hp : flag.parse (resizeFormal ParseInt) initVars argv with
    | error e => rfl
    | ok r =>
      obtain ⟨st, args⟩ := r
      cases args with
      | nil => rfl
      | cons prog rest => simp [hp] at h
  · intro opts hw
    have h := parse_flagArgs ParseInt (runFormal ParseInt) opts (fun _ _ => rfl) hw initVars []
    simp only [List.append_nil] at h
    simp [ParseRunOpts, h, flag.parse]
  · intro opts hs hw
    have h := parse_flagArgs ParseInt (resizeFormal ParseInt) opts
      (resizeFormal_of_sizeOnly ParseInt hs) hw initVars []
    simp only [List.append_nil] at h
    simp [ParseResizeOpts, h, flag.parse]
  · intro opts s rest hw hr
    obtain ⟨e, he⟩ := parse_rejected _ s rest hr (applyOpts ParseInt initVars opts)
    refine ⟨e, ?_⟩
    unfold ParseRunOpts
    rw [parse_flagArgs ParseInt (runFormal ParseInt) opts (fun _ _ => rfl) hw, he]
  · intro opts s rest hs hw hr
    obtain ⟨e, he⟩ := parse_rejected _ s rest hr (applyOpts ParseInt initVars opts)
    refine ⟨e, ?_⟩
    unfold ParseResizeOpts
    rw [parse_flagArgs ParseInt (resizeFormal ParseInt) opts
      (resizeFormal_of_sizeOnly ParseInt hs) hw, he]

theorem parse_opts_fail_whole_witness :
    ParseRunOpts parseDecimal (flagArgs [.cols "80"]) = (SpawnOpts.zero, some .noProgram) ∧
    ∃ e, ParseRunOpts parseDecimal (flagArgs [.cols "80"] ++ "-unknown-flag" :: ["ls"])
      = (SpawnOpts.zero, some (.flag e)) :=
  ⟨(parse_opts_fail_whole parseDecimal).2.2.1 [.cols "80"]
      (by
        intro o ho
        simp only [List.mem_singleton] at ho
        subst ho
        show parseDecimal "80" ≠ none
        decide),
   (parse_opts_fail_whole parseDecimal).2.2.2.2.1 [.cols "80"] "-unknown-flag" ["ls"]
      (by
        intro o ho
        simp only [List.mem_singleton] at ho
        subst ho
        show parseDecimal "80" ≠ none
        decide)
      (Or.inr (Or.inl ⟨"unknown-flag", none, by decide, by simp [runFormal]⟩))⟩

/-! ## The two parsers compared (C30) -/

theorem formal_agree (ParseInt : String → Option Int) {name : String}
    (h1 : name ≠ "dir") (h2 : name ≠ "env") :
    runFormal ParseInt name = resizeFormal ParseInt name := by
  simp [runFormal, resizeFormal, h1, h2]

theorem resizeFormal_keeps (ParseInt : String → Option Int) {name : String}
    {set : String → flag.Vars → Option flag.Vars} (h : resizeFormal ParseInt name = some set)
    {v : String} {st st1 : flag.Vars} (hs : set v st = some st1) :
    st1.dir = st.dir ∧ st1.env = st.env := by
  unfold resizeFormal at h
  by_cases hc : name = "cols"
  · simp only [hc, if_true, Option.some.injEq] at h
    subst h
    cases hp : ParseInt v with
    | none => simp [hp] at hs
    | some n =>
      simp only [hp, Option.map_some', Option.some.injEq] at hs
      subst hs
      exact ⟨rfl, rfl⟩
  · by_cases hr : name = "rows"
    · subst hr
      have hne : ("rows" : String) ≠ "cols" := by decide
      simp only [hne, if_true, if_false, Option.some.injEq] at h
      subst h
      cases hp : ParseInt v with
      | none => simp [hp] at hs
      | some n =>
        simp only [hp, Option.map_some', Option.some.injEq] at hs
        subst hs
        exact ⟨rfl, rfl⟩
    · simp [hc, hr] at h

/-- On an argument list whose flag section names neither `dir` nor `env`, the
two flag sets parse alike. -/
theorem parse_agree (ParseInt : String → Option Int) (n : Nat) :
    ∀ (argv : List String) (st : flag.Vars), argv.length ≤ n →
      "dir" ∉ flag.flagNames argv → "env" ∉ flag.flagNames argv →
      flag.parse (runFormal ParseInt) st argv = flag.parse (resizeFormal ParseInt) st argv := by
  induction n with
  | zero =>
    intro argv st hl _ _
    have : argv = [] := List.length_eq_zero.1 (Nat.le_zero.1 hl)
    subst this
    rfl
  | succ n ih =>
    intro argv st hl hd he
    match argv, hl, hd, he with
    | [], _, _, _ => rfl
    | s :: rest, hl, hd, he =>
      have hrest : rest.length ≤ n := by simpa using hl
      cases hcl : flag.classify s with
      | positional => simp [flag.parse, hcl]
      | terminator => simp [flag.parse, hcl]
      | bad => simp [flag.parse, hcl]
      | flag name value =>
        cases value with
        | some v =>
          simp only [flag.flagNames, hcl, List.mem_cons, not_or] at hd he
          have hf := formal_agree ParseInt (Ne.symm hd.1) (Ne.symm he.1)
          simp only [flag.parse, hcl, hf]
          cases hset : resizeFormal ParseInt name with
          | none => rfl
          | some set =>
            cases hsv : set v st with
            | none => simp [hsv]
            | some st1 => simpa [hsv] using ih rest st1 hrest hd.2 he.2
        | none =>
          match rest, hrest, hd, he with
          | [], _, hd, he =>
            simp only [flag.flagNames, hcl, List.mem_singleton] at hd he
            have hf := formal_agree ParseInt (Ne.symm hd) (Ne.symm he)
            simp only [flag.parse, hcl, hf]
          | v :: rest1, hrest, hd, he =>
            have hrest1 : rest1.length ≤ n := by
              simp only [List.length_cons] at hrest; omega
            simp only [flag.flagNames, hcl, List.mem_cons, not_or] at hd he
            have hf := formal_agree ParseInt (Ne.symm hd.1) (Ne.symm he.1)
            simp only [flag.parse, hcl, hf]
            cases hset : resizeFormal ParseInt name with
            | none => rfl
            | some set =>
              cases hsv : set v st with
              | none => simp [hsv]
              | some st1 => simpa [hsv] using ih rest1 st1 hrest1 hd.2 he.2

/-- The flags of `ParseResizeOpts` leave `dir` and `env` as they were. -/
theorem parse_resize_keeps (ParseInt : String → Option Int) (n : Nat) :
    ∀ (argv : List String) (st st1 : flag.Vars) (args : List String), argv.length ≤ n →
      flag.parse (resizeFormal ParseInt) st argv = .ok (st1, args) →
      st1.dir = st.dir ∧ st1.env = st.env := by
  induction n with
  | zero =>
    intro argv st st1 args hl h
    have : argv = [] := List.length_eq_zero.1 (Nat.le_zero.1 hl)
    subst this
    simp only [flag.parse, Except.ok.injEq, Prod.mk.injEq] at h
    rw [← h.1]
    exact ⟨rfl, rfl⟩
  | succ n ih =>
    intro argv st st1 args hl h
    match argv, hl, h with
    | [], _, h =>
      simp only [flag.parse, Except.ok.injEq, Prod.mk.injEq] at h
      rw [← h.1]
      exact ⟨rfl, rfl⟩
    | s :: rest, hl, h =>
      have hrest : rest.length ≤ n := by simpa using hl
      cases hcl : flag.classify s with
      | positional =>
        simp only [flag.parse, hcl, Except.ok.injEq, Prod.mk.injEq] at h
        rw [← h.1]
        exact ⟨rfl, rfl⟩
      | terminator =>
        simp only [flag.parse, hcl, Except.ok.injEq, Prod.mk.injEq] at h
        rw [← h.1]
        exact ⟨rfl, rfl⟩
      | bad => simp [flag.parse, hcl] at h
      | flag name value =>
        cases hset : resizeFormal ParseInt name with
        | none =>
          simp only [flag.parse, hcl, hset] at h
          split at h <;> cases h
        | some set =>
          cases value with
          | some v =>
            cases hsv : set v st with
            | none => simp [flag.parse, hcl, hset, hsv] at h
            | some st2 =>
              simp only [flag.parse, hcl, hset, hsv] at h
              have h1 := ih rest st2 st1 args hrest h
              have h2 := resizeFormal_keeps ParseInt hset hsv
              exact ⟨h1.1.trans h2.1, h1.2.trans h2.2⟩
          | none =>
            match rest, hrest, h with
            | [], _, h => simp [flag.parse, hcl, hset] at h
            | v :: rest1, hrest, h =>
              have hrest1 : rest1.length ≤ n := by
                simp only [List.length_cons] at hrest; omega
              cases hsv : set v st with
              | none => simp [flag.parse, hcl, hset, hsv] at h
              | some st2 =>
                simp only [flag.parse, hcl, hset, hsv] at h
                have h1 := ih rest1 st2 st1 args hrest1 h
                have h2 := resizeFormal_keeps ParseInt hset hsv
                exact ⟨h1.1.trans h2.1, h1.2.trans h2.2⟩

/-- An argument list whose flag section names `dir` or `env` is refused by the
flag set of `ParseResizeOpts`. -/
theorem parse_resize_rejects (ParseInt : String → Option Int) (n : Nat) :
    ∀ (argv : List String) (st : flag.Vars), argv.length ≤ n →
      "dir" ∈ flag.flagNames argv ∨ "env" ∈ flag.flagNames argv →
      ∃ e, flag.parse (resizeFormal ParseInt) st argv = .error e := by
  induction n with
  | zero =>
    intro argv st hl h
    have : argv = [] := List.length_eq_zero.1 (Nat.le_zero.1 hl)
    subst this
    simp [flag.flagNames] at h
  | succ n ih =>
    intro argv st hl h
    match argv, hl, h with
    | [], _, h => simp [flag.flagNames] at h
    | s :: rest, hl, h =>
      have hrest : rest.length ≤ n := by simpa using hl
      cases hcl : flag.classify s with
      | positional => simp [flag.flagNames, hcl] at h
      | terminator => simp [flag.flagNames, hcl] at h
      | bad => simp [flag.flagNames, hcl] at h
      | flag name value =>
        cases hset : resizeFormal ParseInt name with
        | none =>
          by_cases hh : name = "help" ∨ name = "h"
          · exact ⟨.help, by simp [flag.parse, hcl, hset, hh]⟩
          · exact ⟨.notDefined name, by simp [flag.parse, hcl, hset, hh]⟩
        | some set =>
          have hname : "dir" ≠ name ∧ "env" ≠ name := by
            constructor
            · intro e
              rw [← e] at hset
              simp [resizeFormal] at hset
            · intro e
              rw [← e] at hset
              simp [resizeFormal] at hset
          cases value with
          | some v =>
            simp only [flag.flagNames, hcl, List.mem_cons, hname.1, hname.2, false_or] at h
            cases hsv : set v st with
            | none => exact ⟨.invalidValue v name, by simp [flag.parse, hcl, hset, hsv]⟩
            | some st1 =>
              obtain ⟨e, he⟩ := ih rest st1 hrest h
              exact ⟨e, by simp [flag.parse, hcl, hset, hsv, he]⟩
          | none =>
            match rest, hrest, h with
            | [], _, h => exact ⟨.needsArgument name, by simp [flag.parse, hcl, hset]⟩
            | v :: rest1, hrest, h =>
              have hrest1 : rest1.length ≤ n := by
                simp only [List.length_cons] at hrest; omega
              simp only [flag.flagNames, hcl, List.mem_cons, hname.1, hname.2, false_or] at h
              cases hsv : set v st with
              | none => exact ⟨.invalidValue v name, by simp [flag.parse, hcl, hset, hsv]⟩
              | some st1 =>
                obtain ⟨e, he⟩ := ih rest1 st1 hrest1 h
                exact ⟨e, by simp [flag.parse, hcl, hset, hsv, he]⟩

/-- C30: on every argument list whose flag section names neither `dir` nor
`env`, `ParseResizeOpts` and `ParseRunOpts` return the same options and the
same error, so one fails exactly when the other does; `ParseResizeOpts` always
returns `Dir` empty and `Env` nil; and it refuses every argument list whose
flag section names `dir` or `env`. -/
theorem ParseResizeOpts_agrees_with_ParseRunOpts (ParseInt : String → Option Int) :
    (∀ argv : List String, "dir" ∉ flag.flagNames argv → "env" ∉ flag.flagNames argv →
      ParseResizeOpts ParseInt argv = ParseRunOpts ParseInt argv) ∧
    (∀ argv : List String, (ParseResizeOpts ParseInt argv).1.Dir = "" ∧
      (ParseResizeOpts ParseInt argv).1.Env = none) ∧
    (∀ argv : List String, "dir" ∈ flag.flagNames argv ∨ "env" ∈ flag.flagNames argv →
      ∃ e, ParseResizeOpts ParseInt argv = (SpawnOpts.zero, some (.flag e))) := by
  refine ⟨?_, ?_, ?_⟩
  · intro argv hd he
    have h := parse_agree ParseInt argv.length argv initVars (Nat.le_refl _) hd he
    unfold ParseResizeOpts ParseRunOpts
    rw [h]
    cases hp : flag.parse (resizeFormal ParseInt) initVars argv with
    | error e => rfl
    | ok r =>
      obtain ⟨st, args⟩ := r
      have hk := parse_resize_keeps ParseInt argv.length argv initVars st args (Nat.le_refl _) hp
      cases args with
      | nil => rfl
      | cons prog rest =>
        have h1 : st.dir = "" := hk.1
        have h2 : st.env = none := hk.2
        simp [h1, h2]
  · intro argv
    unfold ParseResizeOpts
    cases hp : flag.parse (resizeFormal ParseInt) initVars argv with
    | error e => exact ⟨rfl, rfl⟩
    | ok r =>
      obtain ⟨st, args⟩ := r
      cases args with
      | nil => exact ⟨rfl, rfl⟩
      | cons prog rest => exact ⟨rfl, rfl⟩
  · intro argv h
    obtain ⟨e, he⟩ := parse_resize_rejects ParseInt argv.length argv initVars (Nat.le_refl _) h
    exact ⟨e, by simp [ParseResizeOpts, he]⟩

theorem ParseResizeOpts_agrees_with_ParseRunOpts_witness :
    ParseResizeOpts parseDecimal ["-cols", "100", "-rows", "30", "top", "-dir"]
      = ParseRunOpts parseDecimal ["-cols", "100", "-rows", "30", "top", "-dir"] :=
  (ParseResizeOpts_agrees_with_ParseRunOpts parseDecimal).1
    ["-cols", "100", "-rows", "30", "top", "-dir"] (by decide) (by decide)

end run

namespace event

/-! ## A trailing ESC (C6) and a read fault (C9) -/

/-- On an input without ESC the output is the events of its maximal runs. -/
theorem processStream_eq_plainEvents (s : List Rune) (hs : ∀ x ∈ s, x ≠ ESC) :
    processStream (ofRunes s) = plainEvents s := by
  cases s with
  | nil => rfl
  | cons a as =>
    have ha : a ≠ ESC := hs a (List.mem_cons_self _ _)
    have has : ∀ x ∈ as, x ≠ ESC := fun x hx => hs x (List.mem_cons_of_mem _ hx)
    have h := splitBy_loop_events as a [] [] has
    cases hc : isControl a with
    | false =>
      have := h.1 hc (by simp)
      simp only [plainEvents, List.splitBy, this, processStream, ofRunes_cons,
        run_text_plain _ _ ha hc]
      simp
    | true =>
      have := h.2 hc
      simp only [plainEvents, List.splitBy, this, processStream, ofRunes_cons,
        run_text_control _ _ hc, flush_nil]
      simp

/-- A non-empty run of text followed by a lone ESC at the end of the input is
flushed as one Text event, and the ESC gives nothing. -/
theorem run_text_then_esc (p : List Rune) (hne : p ≠ [])
    (hp : ∀ x ∈ p, x ≠ ESC ∧ x ≠ CR ∧ x ≠ LF) :
    run (.text []) (ofRunes (p ++ [ESC])) = [⟨EventType.EventText, p⟩] := by
  have h := run_text_gather p hp [] [.ok ESC]
  simp only [List.nil_append] at h
  rw [ofRunes_append, ofRunes_cons, ofRunes_nil, h, run_text_esc]
  simp [run, flush_of_ne_nil hne]

/-- C6: for an ESC-free text `t`, the output on `t` followed by one trailing
ESC is the output on `t` alone, namely the Text and Control events of the
maximal runs of `t`; the text pending at the ESC, the runes after the last
`\r` or `\n`, comes out as a Text event, the last one, and the dangling ESC
gives no event. -/
theorem processStream_trailing_esc (t : List Rune) (ht : ∀ x ∈ t, x ≠ ESC) :
    processStream (ofRunes (t ++ [ESC])) = processStream (ofRunes t) ∧
    processStream (ofRunes (t ++ [ESC])) = plainEvents t ∧
    ∀ (pre p : List Rune), t = pre ++ p → p ≠ [] → (∀ x ∈ p, x ≠ CR ∧ x ≠ LF) →
      (pre = [] ∨ ∃ (a : List Rune) (c : Rune), pre = a ++ [c] ∧ (c = CR ∨ c = LF)) →
      processStream (ofRunes (t ++ [ESC]))
        = processStream (ofRunes pre) ++ [⟨EventType.EventText, p⟩] := by
  have h1 : processStream (ofRunes (t ++ [ESC])) = processStream (ofRunes t) := by
    have h := processStream_whole_esc (whole_of_no_esc t ht) []
    simpa [ofRunes_append, ofRunes_cons, ofRunes_nil, run] using h
  refine ⟨h1, h1.trans (processStream_eq_plainEvents t ht), ?_⟩
  intro pre p he hne hp hpre
  subst he
  have hp2 : ∀ x ∈ p, x ≠ ESC ∧ x ≠ CR ∧ x ≠ LF := fun x hx =>
    ⟨ht x (List.mem_append_right _ hx), hp x hx⟩
  have htail := run_text_then_esc p hne hp2
  rcases hpre with hnil | ⟨a, c, hac, hc⟩
  · subst hnil
    simpa [processStream, ofRunes_nil, run, flush_nil] using htail
  · subst hac
    have ha : ∀ x ∈ a, x ≠ ESC := fun x hx =>
      ht x (List.mem_append_left _ (List.mem_append_left _ hx))
    have hb := run_text_control_boundary a c (ofRunes (p ++ [ESC])) ha
      ((isControl_iff c).2 hc) []
    rw [htail] at hb
    have e : ofRunes (a ++ [c] ++ p ++ [ESC]) = ofRunes (a ++ [c]) ++ ofRunes (p ++ [ESC]) := by
      simp [ofRunes]
    rw [processStream, e, hb]
    rfl

theorem processStream_trailing_esc_witness :
    processStream (ofRunes (runes "hello" ++ [ESC])) = plainEvents (runes "hello") ∧
    processStream (ofRunes (runes "hello" ++ [ESC]))
      = processStream (ofRunes []) ++ [⟨EventType.EventText, runes "hello"⟩] :=
  ⟨(processStream_trailing_esc (runes "hello") (by decide)).2.1,
   (processStream_trailing_esc (runes "hello") (by decide)).2.2 [] (runes "hello") rfl
     (by decide) (by decide) (Or.inl rfl)⟩

/-- After a prefix that ends where no text is pending, what follows is
processed as an input of its own. -/
theorem run_boundary_prefix {pre : List Rune} (h : Boundary pre) (rest : List ReadResult) :
    run (.text []) (ofRunes pre ++ rest)
      = run (.text []) (ofRunes pre) ++ run (.text []) rest := by
  cases h with
  | nil => simp [ofRunes_nil, run, flush_nil]
  | control a c ha hc =>
    obtain ⟨ev, pending, h⟩ := run_whole_prefix ha []
    have hcc := (isControl_iff c).2 hc
    have h1 := h (.ok c :: rest)
    have h2 := h [.ok c]
    rw [run_text_control _ _ hcc] at h1 h2
    simp only [ofRunes_append, ofRunes_cons, ofRunes_nil, List.append_assoc,
      List.singleton_append, h1, h2]
    simp [run, flush_nil]
  | two a c ha hc =>
    obtain ⟨ev, pending, h⟩ := run_whole_prefix ha []
    have h1 := h (.ok ESC :: .ok c :: rest)
    have h2 := h [.ok ESC, .ok c]
    rw [run_text_esc, run_esc_other _ hc] at h1 h2
    simp only [ofRunes_append, ofRunes_cons, ofRunes_nil, List.append_assoc,
      List.cons_append, List.nil_append, h1, h2]
    simp [run, flush_nil]
  | csi a p f ha hp hf =>
    obtain ⟨ev, pending, h⟩ := run_whole_prefix ha []
    have c1 := run_csi_closed p f rest hp hf []
    have c2 := run_csi_closed p f [] hp hf []
    simp only [List.nil_append] at c1 c2
    have h1 := h (.ok ESC :: .ok LBRACKET :: (ofRunes p ++ .ok f :: rest))
    have h2 := h (.ok ESC :: .ok LBRACKET :: (ofRunes p ++ [.ok f]))
    rw [run_text_esc, run_esc_bracket, c1] at h1
    rw [run_text_esc, run_esc_bracket, c2] at h2
    simp only [ofRunes_append, ofRunes_cons, ofRunes_nil, List.append_assoc,
      List.cons_append, List.nil_append, h1, h2]
    simp [run, flush_nil]

/-- Every sequence of whole tokens is a prefix that ends where no text is
pending, followed by the text pending. -/
theorem whole_boundary_text {a : List Rune} (h : Whole a) :
    ∃ (pre p : List Rune), a = pre ++ p ∧ Boundary pre ∧
      ∀ x ∈ p, x ≠ ESC ∧ x ≠ CR ∧ x ≠ LF := by
  induction h with
  | nil => exact ⟨[], [], rfl, Boundary.nil, by simp⟩
  | plain r a hr ha ih =>
    obtain ⟨pre, p, he, hb, hp⟩ := ih
    subst he
    cases hb with
    | nil =>
      cases hc : isControl r with
      | true =>
        exact ⟨[] ++ [r], p, rfl, Boundary.control [] r Whole.nil ((isControl_iff r).1 hc), hp⟩
      | false =>
        refine ⟨[], r :: p, rfl, Boundary.nil, ?_⟩
        intro x hx
        rcases List.mem_cons.1 hx with e | hm
        · subst e
          refine ⟨hr, fun e1 => ?_, fun e1 => ?_⟩
          · rw [(isControl_iff x).2 (Or.inl e1)] at hc; cases hc
          · rw [(isControl_iff x).2 (Or.inr e1)] at hc; cases hc
        · exact hp x hm
    | control a0 c h0 hc =>
      exact ⟨(r :: a0) ++ [c], p, by simp, Boundary.control _ c (Whole.plain r a0 hr h0) hc, hp⟩
    | two a0 c h0 hc =>
      exact ⟨(r :: a0) ++ [ESC, c], p, by simp, Boundary.two _ c (Whole.plain r a0 hr h0) hc, hp⟩
    | csi a0 q f h0 hq hf =>
      exact ⟨(r :: a0) ++ ESC :: LBRACKET :: (q ++ [f]), p, by simp,
        Boundary.csi _ q f (Whole.plain r a0 hr h0) hq hf, hp⟩
  | two c a hc ha ih =>
    obtain ⟨pre, p, he, hb, hp⟩ := ih
    subst he
    cases hb with
    | nil => exact ⟨[] ++ [ESC, c], p, rfl, Boundary.two [] c Whole.nil hc, hp⟩
    | control a0 c0 h0 hc0 =>
      exact ⟨(ESC :: c :: a0) ++ [c0], p, by simp,
        Boundary.control _ c0 (Whole.two c a0 hc h0) hc0, hp⟩
    | two a0 c0 h0 hc0 =>
      exact ⟨(ESC :: c :: a0) ++ [ESC, c0], p, by simp,
        Boundary.two _ c0 (Whole.two c a0 hc h0) hc0, hp⟩
    | csi a0 q f h0 hq hf =>
      exact ⟨(ESC :: c :: a0) ++ ESC :: LBRACKET :: (q ++ [f]), p, by simp,
        Boundary.csi _ q f (Whole.two c a0 hc h0) hq hf, hp⟩
  | csi q0 f0 a hq0 hf0 ha ih =>
    obtain ⟨pre, p, he, hb, hp⟩ := ih
    subst he
    cases hb with
    | nil =>
      exact ⟨[] ++ ESC :: LBRACKET :: (q0 ++ [f0]), p, by simp,
        Boundary.csi [] q0 f0 Whole.nil hq0 hf0, hp⟩
    | control a0 c0 h0 hc0 =>
      exact ⟨(ESC :: LBRACKET :: (q0 ++ f0 :: a0)) ++ [c0], p, by simp,
        Boundary.control _ c0 (Whole.csi q0 f0 a0 hq0 hf0 h0) hc0, hp⟩
    | two a0 c0 h0 hc0 =>
      exact ⟨(ESC :: LBRACKET :: (q0 ++ f0 :: a0)) ++ [ESC, c0], p, by simp,
        Boundary.two _ c0 (Whole.csi q0 f0 a0 hq0 hf0 h0) hc0, hp⟩
    | csi a0 q f h0 hq hf =>
      exact ⟨(ESC :: LBRACKET :: (q0 ++ f0 :: a0)) ++ ESC :: LBRACKET :: (q ++ [f]), p,
        by simp, Boundary.csi _ q f (Whole.csi q0 f0 a0 hq0 hf0 h0) hq hf, hp⟩

/-- C9, as the code has it: a read error other than end-of-stream met by the
outer loop ends the scan without being reported.  With the text `p` pending
after a prefix `pre` that ends where none is, the output on the faulted stream
is the output on `pre` alone: no event is written for the fault nor for what
follows it, and `p` is dropped, where the natural end of the input flushes it;
and every input read up to a read of the outer loop has this form. -/
theorem processStream_fault_not_reported :
    (∀ (pre p : List Rune) (msg : String) (rest : List ReadResult), Boundary pre →
      (∀ x ∈ p, x ≠ ESC ∧ x ≠ CR ∧ x ≠ LF) →
      processStream (ofRunes (pre ++ p) ++ .err (.other msg) :: rest)
          = processStream (ofRunes pre) ∧
      processStream (ofRunes (pre ++ p)) = processStream (ofRunes pre) ++ flush p) ∧
    (∀ a : List Rune, Whole a →
      ∃ (pre p : List Rune), a = pre ++ p ∧ Boundary pre ∧
        ∀ x ∈ p, x ≠ ESC ∧ x ≠ CR ∧ x ≠ LF) := by
  refine ⟨?_, fun a ha => whole_boundary_text ha⟩
  intro pre p msg rest hpre hp
  constructor
  · have h := run_boundary_prefix hpre (ofRunes p ++ .err (.other msg) :: rest)
    have hg := run_text_gather p hp [] (.err (.other msg) :: rest)
    simp only [List.nil_append] at hg
    rw [hg] at h
    simpa [processStream, ofRunes_append, run] using h
  · have h := run_boundary_prefix hpre (ofRunes p)
    have hg := run_text_gather p hp [] []
    simp only [List.nil_append, List.append_nil] at hg
    rw [hg] at h
    simpa [processStream, ofRunes_append, run] using h

theorem processStream_fault_not_reported_witness :
    processStream (ofRunes (([0x61] ++ [LF]) ++ [0x62, 0x63]) ++ .err (.other "read failed") :: [])
        = [⟨EventType.EventText, [0x61]⟩, ⟨EventType.EventControl, [LF]⟩] ∧
    processStream (ofRunes (([0x61] ++ [LF]) ++ [0x62, 0x63]))
        = [⟨EventType.EventText, [0x61]⟩, ⟨EventType.EventControl, [LF]⟩,
           ⟨EventType.EventText, [0x62, 0x63]⟩] :=
  have h := processStream_fault_not_reported.1 ([0x61] ++ [LF]) [0x62, 0x63] "read failed" []
    (Boundary.control [0x61] LF (Whole.plain 0x61 [] (by decide) Whole.nil) (Or.inr rfl))
    (by decide)
  ⟨h.1.trans (by decide), h.2.trans (by decide)⟩

end event

namespace sequence

/-! ## Trimming and the completion signal (C23) -/

theorem stripOne_some {seqs : List (List Nat)} {s s1 : List Nat}
    (h : stripOne seqs s = some s1) : ∃ q ∈ seqs, s = q ++ s1 := by
  obtain ⟨q, hq, hf⟩ := List.exists_of_findSome?_eq_some h
  refine ⟨q, hq, ?_⟩
  by_cases hp : q.isPrefixOf s = true
  · simp only [hp, if_true, Option.some.injEq] at hf
    obtain ⟨t, ht⟩ := List.isPrefixOf_iff_prefix.1 hp
    rw [← hf, ← ht, List.drop_left]
  · simp [hp] at hf

theorem stripOne_prefix {seqs : List (List Nat)}
    (hfree : ∀ q ∈ seqs, ∀ q1 ∈ seqs, q1 <+: q → q1 = q) {q : List Nat} (hq : q ∈ seqs)
    (s : List Nat) : stripOne seqs (q ++ s) = some s := by
  cases h : stripOne seqs (q ++ s) with
  | none =>
    have := List.findSome?_eq_none_iff.1 h q hq
    have hp : q.isPrefixOf (q ++ s) = true := List.isPrefixOf_iff_prefix.2 (List.prefix_append q s)
    simp [hp] at this
  | some s1 =>
    obtain ⟨q1, hq1, he⟩ := stripOne_some h
    have h1 : q1 <+: q ++ s := ⟨s1, he.symm⟩
    have h2 : q <+: q ++ s := List.prefix_append q s
    have hqq : q1 = q := by
      rcases List.prefix_or_prefix_of_prefix h1 h2 with h3 | h3
      · exact hfree q hq q1 hq1 h3
      · exact (hfree q1 hq1 q hq h3).symm
    subst hqq
    rw [List.append_cancel_left he]

theorem stripOne_none {seqs : List (List Nat)} {x : Nat}
    (hhead : ∀ q ∈ seqs, q.head? ≠ none ∧ q.head? ≠ some x) (t : List Nat) :
    stripOne seqs (x :: t) = none := by
  apply List.findSome?_eq_none_iff.2
  intro q hq
  obtain ⟨h1, h2⟩ := hhead q hq
  cases q with
  | nil => exact absurd rfl h1
  | cons y ys =>
    have hy : y ≠ x := fun e => h2 (by rw [e]; rfl)
    have : (y :: ys).isPrefixOf (x :: t) = false := by
      simp [List.isPrefixOf, hy]
    simp [this]

theorem trimLeftSeqs_flatten {seqs : List (List Nat)} {x : Nat}
    (hfree : ∀ q ∈ seqs, ∀ q1 ∈ seqs, q1 <+: q → q1 = q)
    (hhead : ∀ q ∈ seqs, q.head? ≠ none ∧ q.head? ≠ some x) (t : List Nat)
    (qs : List (List Nat)) :
    ∀ fuel : Nat, (∀ q ∈ qs, q ∈ seqs) → qs.length ≤ fuel →
      trimLeftSeqs seqs fuel (qs.flatten ++ x :: t) = x :: t := by
  induction qs with
  | nil =>
    intro fuel _ _
    cases fuel with
    | zero => rfl
    | succ f => simp [trimLeftSeqs, stripOne_none hhead t]
  | cons q qs1 ih =>
    intro fuel hq hl
    cases fuel with
    | zero => simp at hl
    | succ f =>
      have hs := stripOne_prefix hfree (hq q (List.mem_cons_self _ _)) (qs1.flatten ++ x :: t)
      simp only [List.flatten_cons, List.append_assoc, trimLeftSeqs, hs]
      exact ih f (fun y hy => hq y (List.mem_cons_of_mem _ hy)) (by simpa using hl)

theorem length_le_length_flatten {seqs : List (List Nat)}
    (hne : ∀ q ∈ seqs, q.head? ≠ none) (qs : List (List Nat)) (hq : ∀ q ∈ qs, q ∈ seqs)
    (rest : List Nat) : qs.length ≤ (qs.flatten ++ rest).length := by
  induction qs with
  | nil => simp
  | cons q qs1 ih =>
    have h1 := ih (fun y hy => hq y (List.mem_cons_of_mem _ hy))
    have h2 : 1 ≤ q.length := by
      cases q with
      | nil => exact absurd rfl (hne [] (hq [] (List.mem_cons_self _ _)))
      | cons y ys => simp
    simp only [List.flatten_cons, List.length_append, List.length_cons] at h1 ⊢
    omega

theorem trimLeftSeqs_decomp (seqs : List (List Nat)) (fuel : Nat) :
    ∀ s : List Nat, ∃ qs : List (List Nat), (∀ q ∈ qs, q ∈ seqs) ∧
      s = qs.flatten ++ trimLeftSeqs seqs fuel s := by
  induction fuel with
  | zero => exact fun s => ⟨[], by simp, by simp [trimLeftSeqs]⟩
  | succ f ih =>
    intro s
    cases h : stripOne seqs s with
    | none => exact ⟨[], by simp, by simp [trimLeftSeqs, h]⟩
    | some s1 =>
      obtain ⟨q, hq, he⟩ := stripOne_some h
      obtain ⟨qs, hqs, hs⟩ := ih s1
      refine ⟨q :: qs, ?_, ?_⟩
      · intro y hy
        rcases List.mem_cons.1 hy with e | hm
        · exact e ▸ hq
        · exact hqs y hm
      · simp only [trimLeftSeqs, h, List.flatten_cons, List.append_assoc]
        rw [← hs, he]

theorem whiteSpace_reverse_of_reversed (qs : List (List Nat))
    (h : ∀ q ∈ qs, q ∈ spaceRunes.map List.reverse) : WhiteSpace qs.flatten.reverse := by
  refine ⟨(qs.map List.reverse).reverse, ?_, List.reverse_flatten qs⟩
  intro q hq
  rw [List.mem_reverse, List.mem_map] at hq
  obtain ⟨q1, hq1, e⟩ := hq
  obtain ⟨q0, hq0, e0⟩ := List.mem_map.1 (h q1 hq1)
  rw [← e, ← e0, List.reverse_reverse]
  exact hq0

/-- A line trims to the sentinel exactly when it is the sentinel with white
space before it and after it. -/
theorem trimSpace_eq_done_iff (line : List Nat) :
    TrimSpace line = done ↔
      ∃ l r : List Nat, WhiteSpace l ∧ WhiteSpace r ∧ line = l ++ done ++ r := by
  have hfree : ∀ q ∈ spaceRunes, ∀ q1 ∈ spaceRunes, q1 <+: q → q1 = q := by decide
  have hfreeR : ∀ q ∈ spaceRunes.map List.reverse, ∀ q1 ∈ spaceRunes.map List.reverse,
      q1 <+: q → q1 = q := by decide
  have hhead : ∀ q ∈ spaceRunes, q.head? ≠ none ∧ q.head? ≠ some 0x5b := by decide
  have hheadR : ∀ q ∈ spaceRunes.map List.reverse, q.head? ≠ none ∧ q.head? ≠ some 0x5d := by
    decide
  have hd : done = 0x5b :: done.tail := by decide
  have hdr : done.reverse = 0x5d :: done.reverse.tail := by decide
  constructor
  · intro h
    obtain ⟨ql, hql, hl⟩ := trimLeftSeqs_decomp spaceRunes line.length line
    obtain ⟨qr, hqr, hr⟩ := trimLeftSeqs_decomp (spaceRunes.map List.reverse)
      (trimLeftSeqs spaceRunes line.length line).length
      (trimLeftSeqs spaceRunes line.length line).reverse
    have ht : (trimLeftSeqs (spaceRunes.map List.reverse)
        (trimLeftSeqs spaceRunes line.length line).length
        (trimLeftSeqs spaceRunes line.length line).reverse).reverse = done := h
    have hmid : trimLeftSeqs spaceRunes line.length line = done ++ qr.flatten.reverse := by
      have := congrArg List.reverse hr
      rw [List.reverse_reverse, List.reverse_append, ht] at this
      exact this
    refine ⟨ql.flatten, qr.flatten.reverse, ⟨ql, hql, rfl⟩,
      whiteSpace_reverse_of_reversed qr hqr, ?_⟩
    rw [List.append_assoc, ← hmid]
    exact hl
  · rintro ⟨l, r, ⟨ql, hql, rfl⟩, ⟨qr, hqr, rfl⟩, rfl⟩
    have hfuel : ql.length ≤ (ql.flatten ++ done ++ qr.flatten).length := by
      rw [List.append_assoc]
      exact length_le_length_flatten (fun q hq => (hhead q hq).1) ql hql _
    have h1 : trimLeftSeqs spaceRunes (ql.flatten ++ done ++ qr.flatten).length
        (ql.flatten ++ done ++ qr.flatten) = done ++ qr.flatten := by
      have hs : ql.flatten ++ done ++ qr.flatten
          = ql.flatten ++ 0x5b :: (done.tail ++ qr.flatten) := by
        rw [List.append_assoc]
        rfl
      have := trimLeftSeqs_flatten hfree hhead (done.tail ++ qr.flatten) ql
        (ql.flatten ++ done ++ qr.flatten).length hql hfuel
      rw [← hs] at this
      rw [this]
      rfl
    have hrev : (done ++ qr.flatten).reverse
        = ((qr.map List.reverse).reverse).flatten ++ 0x5d :: done.reverse.tail := by
      rw [List.reverse_append, List.reverse_flatten, ← hdr]
    have hqr2 : ∀ q ∈ (qr.map List.reverse).reverse, q ∈ spaceRunes.map List.reverse := by
      intro q hq
      rw [List.mem_reverse, List.mem_map] at hq
      obtain ⟨q1, hq1, e⟩ := hq
      exact List.mem_map.2 ⟨q1, hqr q1 hq1, e⟩
    have hfuel2 : ((qr.map List.reverse).reverse).length ≤ (done ++ qr.flatten).length := by
      have := length_le_length_flatten (fun q hq => (hheadR q hq).1)
        ((qr.map List.reverse).reverse) hqr2 (0x5d :: done.reverse.tail)
      have h3 : (((qr.map List.reverse).reverse).flatten ++ 0x5d :: done.reverse.tail).length
          = (done ++ qr.flatten).length := by
        rw [← hrev, List.length_reverse]
      rw [h3] at this
      exact this
    have h2 := trimLeftSeqs_flatten hfreeR hheadR done.reverse.tail
      ((qr.map List.reverse).reverse) (done ++ qr.flatten).length hqr2 hfuel2
    rw [← hrev] at h2
    show (trimLeftSeqs (spaceRunes.map List.reverse)
        (trimLeftSeqs spaceRunes (ql.flatten ++ done ++ qr.flatten).length
          (ql.flatten ++ done ++ qr.flatten)).length
        (trimLeftSeqs spaceRunes (ql.flatten ++ done ++ qr.flatten).length
          (ql.flatten ++ done ++ qr.flatten)).reverse).reverse = done
    rw [h1, h2, ← hdr, List.reverse_reverse]

/-- C23: when the line reader has run through an output, `cmdDone` holds a
value if and only if one of the lines it read, with surrounding white space
trimmed, is the sentinel `[[PTYX_DONE]]`, that is, if and only if one of them
is the sentinel with nothing but white space before and after it; it never
holds more than one, however many such lines there are, and the send never
blocks.  A line that only contains the sentinel does not count; a sentinel
line padded with white space counts; two sentinel lines leave one value. -/
theorem lineReader_cmdDone (out : List Nat) :
    ((lineReader out).cmdDone = 1 ↔ ∃ l ∈ (lineReader out).lines, TrimSpace l = done) ∧
    (lineReader out).cmdDone ≤ 1 ∧
    (lineReader ("x[[PTYX_DONE]]\n".toList.map Char.toNat)).cmdDone = 0 ∧
    (lineReader ("[[PTYX_DONE]]\r\n  [[PTYX_DONE]] \n".toList.map Char.toNat)).cmdDone = 1 ∧
    ((lineReader out).cmdDone = 1 ↔
      ∃ line ∈ (lineReader out).lines, ∃ l r : List Nat,
        WhiteSpace l ∧ WhiteSpace r ∧ line = l ++ done ++ r) ∧
    (lineReader ("ready\n \t [[PTYX_DONE]] \t\r\nmore\n".toList.map Char.toNat)).cmdDone = 1 ∧
    (lineReader ([0xc2, 0xa0] ++ done ++ [0xe3, 0x80, 0x80, LF])).cmdDone = 1 ∧
    (lineReader ("[[PTYX_ DONE]]\n[[PTYX_DONE]]!\n".toList.map Char.toNat)).cmdDone = 0 := by
  obtain ⟨h1, h2⟩ := markDone_spec (lineReader out).lines 0 (by omega)
  have e : (lineReader out).cmdDone = markDone 0 (lineReader out).lines := rfl
  have hmain : (lineReader out).cmdDone = 1 ↔
      ∃ l ∈ (lineReader out).lines, TrimSpace l = done := by
    rw [e, h2]
    simp
  refine ⟨hmain, h1, by decide, by decide, ?_, by decide, by decide, by decide⟩
  rw [hmain]
  constructor
  · rintro ⟨l, hl, ht⟩
    exact ⟨l, hl, (trimSpace_eq_done_iff l).1 ht⟩
  · rintro ⟨l, hl, ht⟩
    exact ⟨l, hl, (trimSpace_eq_done_iff l).2 ht⟩

end sequence
